import Mathlib

/-!
# ResTools — verification of the ingestion / extraction / merge-back pipeline

Shallow embedding of the core of the `ResTools` repository:

* `format_for_google_sheets` (sheet formatter, identical in
  `batch_direct_upload_processor.py` and `batch_text_methodology_processor.py`),
* `_is_pdf_url` (link classifier, identical in `papers_processor.py` and
  `google_sheets_reader.py`),
* `process_links_and_download_pdfs` (download pass, `google_sheets_reader.py`),
* `update_google_sheet_with_methodology` (row reconciler merge),
* `generate_methodology_summary` (two-strategy extraction engine,
  `batch_direct_upload_processor.py`) and `process_all_pdfs`,
* `update_sheet_with_pdf_info` (sheet write-back serialization and range).

Python strings are modelled as `List Char`; the ASCII whitespace class stands
in for `\s` / `str.strip`'s whitespace; network, filesystem and OpenAI calls
are modelled as explicit oracles.
-/

set_option maxHeartbeats 1000000

namespace ResTools

/-- Python whitespace characters (ASCII fragment of the class matched by `\s`
and stripped by `str.strip`): space, tab, newline, carriage return,
vertical tab, form feed. -/
def isPySpace (c : Char) : Bool :=
  c = ' ' || c = '\t' || c = '\n' || c = '\r' || c = Char.ofNat 11 || c = Char.ofNat 12

/-- The character class `[ \t]` of the run-collapsing substitution. -/
def isSpaceTab (c : Char) : Bool :=
  c = ' ' || c = '\t'

/-- `str.strip()`: remove leading and trailing whitespace. -/
def pyStrip (l : List Char) : List Char :=
  ((l.dropWhile isPySpace).reverse.dropWhile isPySpace).reverse

/-! ## The sheet formatter (`format_for_google_sheets`)

The Python body performs three `re.sub` passes, a 45,000-character cap with
a fixed truncation marker, and a final `strip()`:

```
text = re.sub(r'\n\s*\n', '\n', text)
text = re.sub(r'[ \t]+', ' ', text)
text = re.sub(r'^\s*-\s*', '• ', text, flags=re.MULTILINE)
if len(text) > 45000:
    text = text[:45000] + "\n\n[Summary truncated due to length]"
return text.strip()
```
-/

/-- Scanning helper for the `\n\s*\n → \n` substitution: look at the maximal
whitespace prefix of the list; if it holds a newline, return the remainder
after the *last* newline of that prefix (the greedy `\s*` backtracks to the
last position where the final `\n` of the pattern can match), else `none`. -/
def wsSkipLastNl : List Char → Option (List Char)
  | [] => none
  | c :: cs =>
    if isPySpace c then
      match wsSkipLastNl cs with
      | some rest => some rest
      | none => if c = '\n' then some cs else none
    else none

/-- `re.sub(r'\n\s*\n', '\n', text)`: at each newline whose following maximal
whitespace run holds another newline, the stretch through the last such
newline collapses to a single newline; scanning resumes after the match. -/
def subNl (l : List Char) : List Char :=
  match l with
  | [] => []
  | c :: cs =>
    if c = '\n' then
      match h : wsSkipLastNl cs with
      | some rest => '\n' :: subNl rest
      | none => c :: subNl cs
    else c :: subNl cs
termination_by l.length
decreasing_by
  · have key : ∀ (u rest : List Char), wsSkipLastNl u = some rest →
        rest.length < u.length := by
      intro u
      induction u with
      | nil => intro rest h2; simp [wsSkipLastNl] at h2
      | cons d ds ih =>
        intro rest h2
        simp only [wsSkipLastNl] at h2
        split at h2
        · split at h2
          · cases h2
            exact Nat.lt_succ_of_lt (ih _ ‹_›)
          · split at h2
            · cases h2; exact Nat.lt_succ_self _
            · exact absurd h2 (by simp)
        · exact absurd h2 (by simp)
    exact Nat.lt_succ_of_lt (key _ _ h)
  · exact Nat.lt_succ_self _
  · exact Nat.lt_succ_self _

/-- `re.sub(r'[ \t]+', ' ', text)`: each maximal run of spaces/tabs becomes a
single space. -/
def subSpaces (l : List Char) : List Char :=
  match l with
  | [] => []
  | c :: cs =>
    if isSpaceTab c then ' ' :: subSpaces (cs.dropWhile isSpaceTab)
    else c :: subSpaces cs
termination_by l.length
decreasing_by
  · exact Nat.lt_succ_of_le ((cs.dropWhile_sublist isSpaceTab).length_le)
  · exact Nat.lt_succ_self _

/-- Attempted match of `\s*-\s*` at a `^` position: it succeeds exactly when
the character after the maximal whitespace prefix is a dash (backtracking
cannot help: shorter whitespace prefixes are followed by whitespace); the
dash's maximal trailing whitespace is consumed as well.  The returned flag
records whether the last consumed character was a newline, which is what
re-establishes the MULTILINE `^` anchor at the resume position. -/
def bulletMatch (l : List Char) : Option (List Char × Bool) :=
  match l.dropWhile isPySpace with
  | c :: rest2 =>
    if c = '-' then
      some (rest2.dropWhile isPySpace,
            ((rest2.takeWhile isPySpace).getLast? = some '\n' : Bool))
    else none
  | [] => none

/-- `re.sub(r'^\s*-\s*', '• ', text, flags=re.MULTILINE)`: the flag tracks
whether the current scan position is a `^` position (string start, or just
after a newline). -/
def subBullets (atStart : Bool) (l : List Char) : List Char :=
  match l with
  | [] => []
  | c :: cs =>
    if atStart then
      match h : bulletMatch (c :: cs) with
      | some (rest, nl) => '•' :: ' ' :: subBullets nl rest
      | none => c :: subBullets (c = '\n') cs
    else c :: subBullets (c = '\n') cs
termination_by l.length
decreasing_by
  · have key : ∀ (u rest : List Char) (b : Bool), bulletMatch u = some (rest, b) →
        rest.length < u.length := by
      intro u rest2 b h2
      unfold bulletMatch at h2
      split at h2
      next d ds heq =>
        split at h2
        · cases h2
          calc (ds.dropWhile isPySpace).length
              ≤ ds.length := (ds.dropWhile_sublist isPySpace).length_le
            _ < (d :: ds).length := Nat.lt_succ_self _
            _ ≤ u.length := by
                rw [← heq]; exact (u.dropWhile_sublist isPySpace).length_le
        · exact absurd h2 (by simp)
      next heq => exact absurd h2 (by simp)
    exact key _ _ _ h
  · exact Nat.lt_succ_self _
  · exact Nat.lt_succ_self _

/-- The three substitution passes, before the cap and the final strip. -/
def normalizeText (l : List Char) : List Char :=
  subBullets true (subSpaces (subNl l))

/-- The fixed truncation marker appended when the 45,000-character cap is
exceeded. -/
def truncMarker : List Char := "\n\n[Summary truncated due to length]".data

/-- `format_for_google_sheets(text)` — `None` or empty input gives `""`
(`if not text: return ""`), else three regex passes, the length cap with
marker, and `strip()`. -/
def format_for_google_sheets (text : Option (List Char)) : List Char :=
  match text with
  | none => []
  | some l =>
    if l = [] then []
    else
      let t := normalizeText l
      let t' := if 45000 < t.length then t.take 45000 ++ truncMarker else t
      pyStrip t'

/-! ## The link classifier (`_is_pdf_url`) and its `urlparse` path model -/

/-- `str.lower()` on ASCII letters. -/
def toLowerAscii (c : Char) : Char :=
  if 'A' ≤ c ∧ c ≤ 'Z' then Char.ofNat (c.toNat + 32) else c

/-- Characters allowed in a URL scheme (`urllib.parse.scheme_chars`). -/
def isSchemeChar (c : Char) : Bool :=
  ('a' ≤ c && c ≤ 'z') || ('A' ≤ c && c ≤ 'Z') || ('0' ≤ c && c ≤ '9') ||
    c = '+' || c = '-' || c = '.'

def isAsciiAlpha (c : Char) : Bool :=
  ('a' ≤ c && c ≤ 'z') || ('A' ≤ c && c ≤ 'Z')

/-- `urlsplit` first lstrips WHATWG C0-control-or-space characters (code
points `≤ 0x20`) and then deletes every tab, carriage return and line feed
(`_UNSAFE_URL_BYTES_TO_REMOVE`). -/
def sanitizeUrl (l : List Char) : List Char :=
  (l.dropWhile (fun c => c.toNat ≤ 32)).filter
    (fun c => c ≠ '\t' && c ≠ '\r' && c ≠ '\n')

/-- Drop the fragment: everything from the first `#`. -/
def stripFragment (l : List Char) : List Char := l.takeWhile (fun c => c ≠ '#')

/-- Drop the query: everything from the first `?`. -/
def stripQuery (l : List Char) : List Char := l.takeWhile (fun c => c ≠ '?')

/-- Split off a leading `scheme:` when the prefix before the first colon is a
nonempty run of scheme characters starting with a letter (`urlsplit`);
returns the lowercased scheme (empty when absent) and the remainder. -/
def splitScheme (l : List Char) : List Char × List Char :=
  let pre := l.takeWhile (fun c => c ≠ ':')
  if decide (pre.length < l.length) && !pre.isEmpty &&
      (match pre.head? with | some c => isAsciiAlpha c | none => false) &&
      pre.all isSchemeChar then
    (pre.map toLowerAscii, l.drop (pre.length + 1))
  else ([], l)

def isAsciiDigit (c : Char) : Bool := '0' ≤ c && c ≤ '9'

/-- `_HEX_DIGITS = frozenset('0123456789ABCDEFabcdef')` of `ipaddress`. -/
def isHexDigitAscii (c : Char) : Bool :=
  isAsciiDigit c || ('a' ≤ c && c ≤ 'f') || ('A' ≤ c && c ≤ 'F')

def digitsToNat (o : List Char) : Nat :=
  o.foldl (fun acc c => acc * 10 + (c.toNat - '0'.toNat)) 0

/-- `IPv4Address._parse_octet` succeeds: nonempty, ASCII decimal digits
only, at most 3 characters, no leading zero (except `0` itself), value at
most 255. -/
def octetOk (o : List Char) : Bool :=
  !o.isEmpty && o.all isAsciiDigit && decide (o.length ≤ 3) &&
  (decide (o = ['0']) || decide (o.head? ≠ some '0')) &&
  decide (digitsToNat o ≤ 255)

/-- `IPv4Address` on a string succeeds: no `/`, nonempty, exactly four
`.`-separated valid octets. -/
def ipv4Ok (s : List Char) : Bool :=
  !s.contains '/' && !s.isEmpty &&
  (let octets := s.splitOn '.'
   decide (octets.length = 4) && octets.all octetOk)

/-- `IPv6Address._parse_hextet` succeeds: hex digits only, length 1–4. -/
def hextetOk (h : List Char) : Bool :=
  h.all isHexDigitAscii && !h.isEmpty && decide (h.length ≤ 4)

/-- The `::`-skip analysis of `IPv6Address._ip_int_from_string` on the
`:`-split parts (after any IPv4-tail replacement): at most 9 parts; with no
interior empty part, exactly 8 parts with nonempty endpoints, all valid
hextets; with one interior empty part (the `::`), an empty endpoint only
directly adjacent to it, at most 7 parts carried, and every carried part a
valid hextet. -/
def ipv6PartsOk (parts : List (List Char)) : Bool :=
  let n := parts.length
  let interior := (parts.drop 1).take (n - 2)
  decide (n ≤ 9) &&
  (match interior.findIdx? (fun p => p.isEmpty) with
   | none =>
     decide (n = 8) && !(parts.headD []).isEmpty &&
       !(parts.getLastD []).isEmpty && parts.all hextetOk
   | some j =>
     let i := j + 1
     let headEmpty := (parts.headD []).isEmpty
     let lastEmpty := (parts.getLastD []).isEmpty
     decide ((interior.drop (j + 1)).countP (fun p => p.isEmpty) = 0) &&
     (!headEmpty || decide (i = 1)) &&
     (!lastEmpty || decide (i = n - 2)) &&
     (let hi := if headEmpty then 0 else i
      let lo := if lastEmpty then 0 else n - i - 1
      decide (hi + lo ≤ 7) &&
      (parts.take hi).all hextetOk && (parts.drop (n - lo)).all hextetOk))

/-- `IPv6Address._ip_int_from_string` succeeds: nonempty, at least two
colons, a dotted final part parsed as an embedded IPv4 address (and
replaced by two hextets), then the parts analysis. -/
def ipv6CoreOk (s : List Char) : Bool :=
  !s.isEmpty &&
  (let parts := s.splitOn ':'
   decide (3 ≤ parts.length) &&
   (let lastP := parts.getLastD []
    if lastP.contains '.' then
      ipv4Ok lastP && ipv6PartsOk (parts.dropLast ++ [['0'], ['0']])
    else ipv6PartsOk parts))

/-- `IPv6Address` on a string succeeds: no `/`, an optional single
`%scope_id` with the scope nonempty and `%`-free
(`_split_scope_id`), and a valid address body. -/
def ipv6Ok (s : List Char) : Bool :=
  !s.contains '/' &&
  (let addr := s.takeWhile (fun c => c ≠ '%')
   match s.drop addr.length with
   | [] => ipv6CoreOk addr
   | _ :: scope => !scope.isEmpty && !scope.contains '%' && ipv6CoreOk addr)

/-- The `\Av[a-fA-F0-9]+\..+\Z` IPvFuture test of `_check_bracketed_host`:
`v`, a nonempty hex run, a dot, then at least one (non-newline)
character. -/
def ipvFutureOk (h : List Char) : Bool :=
  match h with
  | 'v' :: t =>
    let hexRun := t.takeWhile isHexDigitAscii
    !hexRun.isEmpty &&
      (match t.drop hexRun.length with
       | '.' :: tail => !tail.isEmpty && tail.all (fun c => c ≠ '\n')
       | _ => false)
  | _ => false

/-- `_check_bracketed_host` succeeds: the IPvFuture shape when the host
starts with `v`; otherwise `ipaddress.ip_address` must yield an IPv6
address (an IPv4 address in brackets, or anything unparseable, raises). -/
def bracketedHostOk (h : List Char) : Bool :=
  match h with
  | 'v' :: _ => ipvFutureOk h
  | _ => !ipv4Ok h && ipv6Ok h

def isAsciiChar (c : Char) : Bool := decide (c.toNat ≤ 127)

/-- `_checknetloc` succeeds.  `nfkc` abstracts
`unicodedata.normalize('NFKC', ·)` — a Unicode table outside this model,
taken as a parameter — and is consulted only for non-ASCII netlocs: the
netloc with `@:#?` removed must be NFKC-invariant or normalize to a string
free of `/?#@:`. -/
def checknetlocOk (nfkc : List Char → List Char) (netloc : List Char) : Bool :=
  if netloc.isEmpty || netloc.all isAsciiChar then true
  else
    let n := netloc.filter (fun c => c ≠ '@' && c ≠ ':' && c ≠ '#' && c ≠ '?')
    if nfkc n = n then true
    else !(nfkc n).any (fun c => c = '/' || c = '?' || c = '#' || c = '@' || c = ':')

/-- When the remainder starts with `//`, split off the netloc: everything up
to (but not including) the next `/`; with fragment and query already
stripped, `_splitnetloc`'s delimiters `/?#` reduce to `/`.  `urlsplit`
raises `ValueError("Invalid IPv6 URL")` when the netloc holds `[` without
`]` or `]` without `[`, raises from `_check_bracketed_host` when the text
between the brackets is neither a valid IPv6 address nor an IPvFuture
shape, and raises from `_checknetloc` on a bad non-ASCII netloc; `none`
models those raises. -/
def dropNetloc (nfkc : List Char → List Char) (l : List Char) :
    Option (List Char) :=
  match l with
  | c1 :: c2 :: rest =>
    if c1 = '/' ∧ c2 = '/' then
      let netloc := rest.takeWhile (fun c => c ≠ '/')
      if ('[' ∈ netloc ∧ ']' ∉ netloc) ∨ (']' ∈ netloc ∧ '[' ∉ netloc) then
        none
      else if '[' ∈ netloc ∧ ']' ∈ netloc ∧
          ¬ bracketedHostOk (((netloc.dropWhile (fun c => c ≠ '[')).drop
            1).takeWhile (fun c => c ≠ ']')) = true then
        none
      else if checknetlocOk nfkc netloc = false then none
      else some (rest.dropWhile (fun c => c ≠ '/'))
    else some l
  | _ => some l

/-- `_splitparams`: cut the path at the first `;` occurring in its last
segment (after the last `/`, or anywhere when there is no `/`). -/
def splitParams (l : List Char) : List Char :=
  let k := l.length - (l.reverse.takeWhile (fun c => c ≠ '/')).length
  l.take k ++ (l.drop k).takeWhile (fun c => c ≠ ';')

/-- The schemes for which `urlparse` splits `;parameters` off the path. -/
def uses_params : List (List Char) :=
  [[], "ftp".data, "hdl".data, "prospero".data, "http".data, "imap".data,
   "https".data, "shttp".data, "rtsp".data, "rtspu".data, "sip".data,
   "sips".data, "mms".data, "sftp".data, "tel".data]

/-- The `.path` component of `urllib.parse.urlparse`; `none` when `urlsplit`
raises on the netloc (mismatched square bracket, invalid bracketed host, or
the `_checknetloc` normalization check). -/
def urlPath (nfkc : List Char → List Char) (l : List Char) :
    Option (List Char) :=
  let su := splitScheme (stripQuery (stripFragment (sanitizeUrl l)))
  match dropNetloc nfkc su.2 with
  | none => none
  | some p => some (if uses_params.contains su.1 then splitParams p else p)

/-- A Python value as passed to the classifier: a string, `None`, or a
non-string such as an `int`. -/
inductive PyVal where
  | vNone : PyVal
  | vStr : String → PyVal
  | vInt : Int → PyVal
deriving DecidableEq

/-- The fixed keyword patterns of the classifier. -/
def pdf_patterns : List (List Char) :=
  ["pdf".data, "/pdf/".data, "format=pdf".data, "type=pdf".data,
   "filetype=pdf".data, "download=pdf".data]

/-- `_is_pdf_url(url)`: `False` on `None` / empty / non-string input; else
`urlparse(url)` runs first — with no surrounding try/except its
`ValueError("Invalid IPv6 URL")` propagates, modelled as `none` — and the
result is `True` when the lowercased path ends in `.pdf`, or when any of
the fixed keyword patterns occurs in the lowercased URL. -/
def _is_pdf_url (nfkc : List Char → List Char) (url : PyVal) : Option Bool :=
  match url with
  | .vStr s =>
    if s.data = [] then some false
    else
      match urlPath nfkc s.data with
      | none => none
      | some rawPath =>
        let path := rawPath.map toLowerAscii
        if ".pdf".data.isSuffixOf path then some true
        else
          let ul := s.data.map toLowerAscii
          some (pdf_patterns.any (fun p => decide (p <:+: ul)))
  | _ => some false

/-- The implicit-claim comparison point, written from the spec claim's words
(not from the source): classification is claimed to be equivalent to the
single test that `pdf` occurs in the lowercased URL. -/
def classifySpecPdfSubstring (s : String) : Bool :=
  decide ("pdf".data <:+: s.data.map toLowerAscii)

/-! ## Fixed-point characterizations of the three formatter passes -/

/-- Fixed points of the first substitution: after every newline, the maximal
whitespace run holds no further newline. -/
def okSub1 : List Char → Bool
  | [] => true
  | c :: cs =>
      (if c = '\n' then (cs.takeWhile isPySpace).all (fun d => decide (d ≠ '\n'))
       else true) && okSub1 cs

/-- Fixed points of the run-collapsing substitution: no tab, and no two
adjacent spaces. -/
def okSub2 : List Char → Bool
  | [] => true
  | c :: cs =>
      decide (c ≠ '\t') &&
      (if c = ' ' then
        (match cs.head? with
         | some d => decide (d ≠ ' ')
         | none => true)
       else true) && okSub2 cs

/-- No `\s*-` match at this position: the character after the maximal
whitespace prefix is not a dash. -/
def noBulletAt (l : List Char) : Bool :=
  match l.dropWhile isPySpace with
  | c :: _ => decide (c ≠ '-')
  | [] => true

/-- Fixed points of the bullet substitution: no `^` position admits a
`\s*-` match. -/
def okSub3 : Bool → List Char → Bool
  | _, [] => true
  | atStart, c :: cs =>
      (if atStart then noBulletAt (c :: cs) else true) && okSub3 (c = '\n') cs

/-- Concrete formatter input for the idempotence analysis: already
normalized, longer than the cap, with a newline-space pair straddling the
45,000-character cut. -/
def c3Input : List Char :=
  List.replicate 44998 'a' ++ '\n' :: ' ' :: List.replicate 100 'b'

/-! ## Tables

A tabular dataset as read from the sheet: named columns plus rows of cell
strings (the pandas `DataFrame` of `read_sheet`, whose cells are strings). -/

structure Table where
  headers : List String
  rows : List (List String)
deriving DecidableEq

/-- `df[name] = value`: overwrite the column when present (every row's cell
at its index is set), else append it on the right. -/
def setColumn (t : Table) (name v : String) : Table :=
  match t.headers.findIdx? (fun h => h = name) with
  | some i => ⟨t.headers, t.rows.map (fun r => r.set i v)⟩
  | none => ⟨t.headers ++ [name], t.rows.map (fun r => r ++ [v])⟩

/-- `str.strip()` on a `String`. -/
def pyStripStr (s : String) : String := String.mk (pyStrip s.data)

/-- Lookup in the summaries mapping (a Python dict keyed by PDF id). -/
def lookupAssoc (m : List (String × String)) (k : String) : Option String :=
  match m with
  | [] => none
  | (k', v) :: rest => if k' = k then some v else lookupAssoc rest k

/-! ## The row reconciler (`update_google_sheet_with_methodology`) -/

/-- `update_google_sheet_with_methodology`: first `df['Methodology'] = ''`
(adding the column, or resetting every cell of an existing one), then for
each row whose stripped `PDF ID` cell is a key of the summaries mapping, the
`Methodology` cell is set to the mapped value.  (`pd.notna` is always true on
the string cells of `read_sheet`.) -/
def update_google_sheet_with_methodology (t : Table)
    (summaries : List (String × String)) : Table :=
  let t1 := setColumn t "Methodology" ""
  match t1.headers.findIdx? (fun h => h = "PDF ID") with
  | none => t1
  | some ip =>
    match t1.headers.findIdx? (fun h => h = "Methodology") with
    | none => t1
    | some im =>
      ⟨t1.headers, t1.rows.map (fun r =>
        let pdfId := pyStripStr ((r[ip]?).getD "")
        match lookupAssoc summaries pdfId with
        | some v => r.set im v
        | none => r)⟩

/-! ## The download pass (`process_links_and_download_pdfs`) -/

/-- `str(self.pdf_dir / f"{unique_id}.pdf")`. -/
def pdfPathFor (uid : String) : String := "papers_pdf_id/" ++ uid ++ ".pdf"

/-- One loop iteration of `process_links_and_download_pdfs` on row `r`:
`il`/`ia`/`ii`/`ip` are the indices of the link, `PDF Available`, `PDF ID`
and `PDF Path` columns, `uid` the id drawn for this row, `ok` whether the
download succeeds (`_download_pdf` returns a path rather than `None`).
(A link on which `urlparse` raises would abort the whole Python pass; such
a row is simply not marked here, and the download-pass claims constrain
only rows on which the classifier returns.) -/
def processRow (nfkc : List Char → List Char) (il ia ii ip : Nat)
    (uid : String) (ok : Bool) (r : List String) : List String :=
  let url := (r[il]?).getD ""
  if pyStripStr url = "" then r
  else if _is_pdf_url nfkc (.vStr url) = some true then
    if ok then ((r.set ia "Yes").set ii uid).set ip (pdfPathFor uid)
    else r.set ia "Failed"
  else r

/-- The row loop, carrying the row index into the oracles. -/
def processRowsFrom (nfkc : List Char → List Char) (il ia ii ip : Nat)
    (idGen : Nat → String) (dl : Nat → Bool) :
    Nat → List (List String) → List (List String)
  | _, [] => []
  | i, r :: rs =>
      processRow nfkc il ia ii ip (idGen i) (dl i) r ::
        processRowsFrom nfkc il ia ii ip idGen dl (i + 1) rs

/-- `process_links_and_download_pdfs(df, link_column)`: when the link column
is absent the table is returned unchanged; else the three status columns are
set (`No` / empty), and each row with a nonblank link classified as a PDF is
marked `Yes` (with id and path) or `Failed` according to the download oracle
`dl`; `idGen` models the stream of `str(uuid.uuid4())[:8]` draws. -/
def process_links_and_download_pdfs (t : Table) (linkCol : String)
    (nfkc : List Char → List Char) (idGen : Nat → String) (dl : Nat → Bool) :
    Table :=
  match t.headers.findIdx? (fun h => h = linkCol) with
  | none => t
  | some _ =>
    let t1 := setColumn (setColumn (setColumn t "PDF Available" "No")
      "PDF ID" "") "PDF Path" ""
    let hs := t1.headers
    let il := (hs.findIdx? (fun h => h = linkCol)).getD 0
    let ia := (hs.findIdx? (fun h => h = "PDF Available")).getD 0
    let ii := (hs.findIdx? (fun h => h = "PDF ID")).getD 0
    let ip := (hs.findIdx? (fun h => h = "PDF Path")).getD 0
    ⟨hs, processRowsFrom nfkc il ia ii ip idGen dl 0 t1.rows⟩

/-! ## The sheet write-back (`update_sheet_with_pdf_info`) -/

/-- Data-cell sanitization of the write-back:
`str(value).replace('\n', ' ').replace('\r', ' ')`. -/
def sanitizeCell (s : String) : String :=
  String.mk (s.data.map (fun c =>
    if c = '\n' then ' ' else if c = '\r' then ' ' else c))

/-- The `values` payload: the header row (emitted as-is) followed by the
sanitized data rows (`data = [headers] + data_rows`). -/
def updatePayload (t : Table) : List (List String) :=
  t.headers :: t.rows.map (fun r => r.map sanitizeCell)

/-- The write range:
`f"{worksheet_name}!A1:{chr(ord('A') + len(headers) - 1)}{len(data)}"`. -/
def updateRange (worksheet : String) (t : Table) : String :=
  let endCol := Char.ofNat ('A'.toNat + t.headers.length - 1)
  let endRow := 1 + t.rows.length
  worksheet ++ "!A1:" ++ String.singleton endCol ++ toString endRow

/-! ## The extraction engine (`batch_direct_upload_processor.py`) -/

/-- The run statuses that keep the polling loop going
(`while run.status in ['queued', 'in_progress', 'requires_action']`). -/
def isNonTerminal (s : String) : Bool :=
  s = "queued" || s = "in_progress" || s = "requires_action"

/-- The assistants-run polling loop: `statuses n` is the status observed
after `n` retrieves (`statuses 0` the status of the freshly created run);
the explicit `fuel` bounds how many polls are modelled (the source loop is
unbounded — a run that never reaches a terminal status hangs the batch).
Returns the terminal status reached, `none` when `fuel` polls do not reach
one. -/
def pollLoop (statuses : Nat → String) : Nat → Nat → Option String
  | _, 0 => none
  | i, fuel + 1 =>
      if isNonTerminal (statuses i) then pollLoop statuses (i + 1) fuel
      else some (statuses i)

/-- The oracles of one document's extraction. -/
structure ExtractionEnv where
  /-- `client.files.create`: `some fileId` on success, `none` when the upload
  raises (caught inside `upload_pdf_to_openai`, which then returns `None`). -/
  uploadOutcome : Option String
  /-- an exception is thrown inside
  `generate_methodology_summary_with_assistants` (assistant, thread or run
  creation, or a retrieve during polling). -/
  assistantsRaise : Bool
  /-- the run statuses observed by the polling loop. -/
  statuses : Nat → String
  /-- `messages.data[0].content[0].text.value` once the run completes. -/
  responseText : String
  /-- `chat.completions.create`: `some text`, or `none` when it raises. -/
  chatOutcome : Option String

/-- The Strategy-B prompt of `generate_methodology_summary_with_chat`
after its leading line: the fixed instruction text, with the file id
interpolated again in the closing note. -/
def chatPromptTail (fid : String) : String :=
  "\n\nPlease analyze this PDF and provide a comprehensive summary of the methodology in the following format:\n\n" ++
  "1. **Methodology Overview** (2-3 sentences describing the overall approach)\n\n" ++
  "2. **Key Steps in Bullet Points:**\n   - Step 1: [Description]\n   - Step 2: [Description]\n   - Step 3: [Description]\n   - [Continue as needed]\n\n" ++
  "3. **Methodology Flow:**\n   [Describe the logical flow and sequence of the methodology in paragraph form]\n\n" ++
  "4. **Key Techniques/Tools Used:**\n   - [List main techniques, algorithms, or tools used]\n\n" ++
  "5. **Data Sources/Inputs:**\n   - [Describe what data or inputs are used in the methodology]\n\n" ++
  "6. **Output/Results:**\n   - [Describe what the methodology produces or outputs]\n\n" ++
  "Please focus specifically on the methodology section and make it clear and easy to understand like whats the approach, what are the key steps and architectural framework.\n\n" ++
  "Note: The file ID is " ++ fid ++ " - please reference this file in your analysis."

/-- The Strategy-B prompt of `generate_methodology_summary_with_chat`, with
the file id interpolated at both of its f-string occurrences. -/
def chatPrompt (fid : String) : String :=
  "I have uploaded a PDF file with ID: " ++ fid ++ chatPromptTail fid

/-- A logged OpenAI analysis call. -/
inductive ApiCall where
  | assistantsRun (fid : String)
  | chatCompletion (prompt : String)
deriving DecidableEq

/-- `generate_methodology_summary_with_assistants` (Strategy A): `none` when
the call raises, or when the polling loop ends in a terminal status other
than `completed` (within `fuel` polls). -/
def generate_methodology_summary_with_assistants (env : ExtractionEnv)
    (fuel : Nat) : Option String :=
  if env.assistantsRaise then none
  else
    match pollLoop env.statuses 0 fuel with
    | some s => if s = "completed" then some env.responseText else none
    | none => none

/-- `generate_methodology_summary`: upload the PDF; when the upload fails
(`file_id` is `None`) return `None` without reaching Strategy B; else try
Strategy A and fall back to Strategy B exactly once.  The second component
logs the analysis calls issued. -/
def generate_methodology_summary (env : ExtractionEnv) (fuel : Nat) :
    Option String × List ApiCall :=
  match env.uploadOutcome with
  | none => (none, [])
  | some fid =>
    match generate_methodology_summary_with_assistants env fuel with
    | some summary => (some summary, [.assistantsRun fid])
    | none =>
        (env.chatOutcome, [.assistantsRun fid, .chatCompletion (chatPrompt fid)])

/-- The chat-completion calls of a log. -/
def chatCalls (log : List ApiCall) : List ApiCall :=
  log.filter (fun c => match c with | .chatCompletion _ => true | _ => false)

/-- The assistants calls of a log. -/
def assistantsCalls (log : List ApiCall) : List ApiCall :=
  log.filter (fun c => match c with | .assistantsRun _ => true | _ => false)

/-- `process_all_pdfs`: each stored PDF (filename stem and extraction
environment, in directory order) becomes one `summaries` entry — the
formatted summary, or the fixed sentinel when no summary was produced
(`if summary: ... else: summaries[pdf_id] = "Failed to generate summary"`;
Python truthiness sends an empty summary string to the sentinel branch
too). -/
def process_all_pdfs (files : List (String × ExtractionEnv)) (fuel : Nat) :
    List (String × String) :=
  files.map (fun fe =>
    match (generate_methodology_summary fe.2 fuel).1 with
    | some s =>
        if s = "" then (fe.1, "Failed to generate summary")
        else (fe.1, String.mk (format_for_google_sheets (some s.data)))
    | none => (fe.1, "Failed to generate summary"))

/-! ## Helper lemmas -/

theorem pyStrip_length_le (l : List Char) : (pyStrip l).length ≤ l.length := by
  unfold pyStrip
  rw [List.length_reverse]
  calc ((l.dropWhile isPySpace).reverse.dropWhile isPySpace).length
      ≤ (l.dropWhile isPySpace).reverse.length :=
        ((l.dropWhile isPySpace).reverse.dropWhile_sublist isPySpace).length_le
    _ = (l.dropWhile isPySpace).length := List.length_reverse _
    _ ≤ l.length := (l.dropWhile_sublist isPySpace).length_le

/-- The visible core of the truncation marker survives the final `strip()`:
it is a suffix of `pyStrip (l ++ truncMarker)` for every `l`. -/
theorem core_suffix_pyStrip_marker (l : List Char) :
    "[Summary truncated due to length]".data <:+ pyStrip (l ++ truncMarker) := by
  have h1 : "[Summary truncated due to length]".data <:+
      (l ++ truncMarker).dropWhile isPySpace := by
    rw [List.dropWhile_append]
    split
    · have h2 : List.dropWhile isPySpace truncMarker
          = "[Summary truncated due to length]".data := by decide
      rw [h2]
    · have h2 : "[Summary truncated due to length]".data <:+ truncMarker := by decide
      exact h2.trans (List.suffix_append _ _)
  obtain ⟨w, hw⟩ := h1
  unfold pyStrip
  rw [← hw, List.reverse_append, List.dropWhile_append]
  have h3 : (List.dropWhile isPySpace
      "[Summary truncated due to length]".data.reverse).isEmpty = false := by decide
  rw [h3]
  simp only [Bool.false_eq_true, if_false]
  have h4 : List.dropWhile isPySpace "[Summary truncated due to length]".data.reverse
      = "[Summary truncated due to length]".data.reverse := by decide
  rw [h4, ← List.reverse_append, List.reverse_reverse]
  exact List.suffix_append _ _

/-! ## C4 — formatter length cap -/

/-- C4: for every input, the formatter's output length is at most 45,000
plus the truncation marker's length; the marker is appended exactly when the
normalized text exceeds the cap (its visible core then survives the final
strip), and when the cap is not exceeded the output is just the stripped
normalized text with nothing appended; `None` or empty input gives the empty
string. -/
theorem C4_formatter_cap :
    (∀ t : Option (List Char),
        (format_for_google_sheets t).length ≤ 45000 + truncMarker.length)
    ∧ format_for_google_sheets none = []
    ∧ format_for_google_sheets (some []) = []
    ∧ (∀ l : List Char, l ≠ [] → 45000 < (normalizeText l).length →
        "[Summary truncated due to length]".data <:+
          format_for_google_sheets (some l))
    ∧ (∀ l : List Char, l ≠ [] → (normalizeText l).length ≤ 45000 →
        format_for_google_sheets (some l) = pyStrip (normalizeText l)) := by
  refine ⟨?_, rfl, rfl, ?_, ?_⟩
  · intro t
    match t with
    | none => simp [format_for_google_sheets]
    | some l =>
      by_cases hl : l = []
      · simp [format_for_google_sheets, hl]
      · simp only [format_for_google_sheets, if_neg hl]
        by_cases hc : 45000 < (normalizeText l).length
        · rw [if_pos hc]
          calc (pyStrip ((normalizeText l).take 45000 ++ truncMarker)).length
              ≤ ((normalizeText l).take 45000 ++ truncMarker).length :=
                pyStrip_length_le _
            _ = ((normalizeText l).take 45000).length + truncMarker.length :=
                List.length_append _ _
            _ ≤ 45000 + truncMarker.length := by
                have h := List.length_take 45000 (normalizeText l)
                omega
        · rw [if_neg hc]
          have h := pyStrip_length_le (normalizeText l)
          omega
  · intro l hl hc
    simp only [format_for_google_sheets, if_neg hl]
    rw [if_pos hc]
    exact core_suffix_pyStrip_marker _
  · intro l hl hc
    simp only [format_for_google_sheets, if_neg hl]
    rw [if_neg (by omega)]

unseal subNl subSpaces subBullets in
theorem C4_formatter_cap_witness :
    format_for_google_sheets (some "a  b".data) =
      pyStrip (normalizeText "a  b".data) :=
  C4_formatter_cap.2.2.2.2 "a  b".data (by decide) (by decide)

/-! ## C5 — classifier functional correctness -/

/-- C5 (counterexample): the classifier is not total, and a keyword does not
force `True` on every URL string: `urlparse` is called with no surrounding
try/except, and on `http://[pdf/x` — a non-empty URL whose lowercased form
contains the keyword `pdf` — `urlsplit` raises
`ValueError("Invalid IPv6 URL")` (the netloc `[pdf` holds `[` without `]`),
so the classifier propagates the error instead of returning `True`. -/
theorem C5_counterexample :
    (∀ nfkc : List Char → List Char,
      _is_pdf_url nfkc (.vStr "http://[pdf/x") = none) ∧
      "pdf".data <:+: "http://[pdf/x".data.map toLowerAscii ∧
      "http://[pdf/x" ≠ "" :=
  ⟨fun nfkc => rfl, by decide, by decide⟩

/-- C5 (amended): on `None`, the empty string and non-string input (such as
an integer) the classifier returns `False` without error, and on every
non-empty string on which `urlparse` does not raise it matches its stated
algorithm — `True` iff the lowercased parsed path ends in `.pdf` or one of
the six fixed keyword patterns occurs in the lowercased URL.  It is not
total: it propagates `ValueError` exactly on the non-empty strings whose
netloc makes `urlsplit` raise (mismatched square bracket). -/
theorem C5_amended_is_pdf_url_algorithm (nfkc : List Char → List Char) :
    (∀ (s : String) (rawPath : List Char), s ≠ "" →
        urlPath nfkc s.data = some rawPath →
        (_is_pdf_url nfkc (.vStr s) = some true ↔
          ".pdf".data.isSuffixOf (rawPath.map toLowerAscii) = true ∨
            ∃ p ∈ pdf_patterns, p <:+: s.data.map toLowerAscii))
    ∧ (∀ s : String, _is_pdf_url nfkc (.vStr s) = none ↔
        s ≠ "" ∧ urlPath nfkc s.data = none)
    ∧ _is_pdf_url nfkc .vNone = some false
    ∧ _is_pdf_url nfkc (.vStr "") = some false
    ∧ (∀ n : Int, _is_pdf_url nfkc (.vInt n) = some false) := by
  refine ⟨?_, ?_, rfl, rfl, fun n => rfl⟩
  · intro s rawPath hs hpath
    have hd : ¬(s.data = []) := fun h => hs (by
      cases s with
      | mk data => simp only at h; rw [h])
    simp only [_is_pdf_url, if_neg hd, hpath]
    split
    next h => exact iff_of_true rfl (Or.inl h)
    next h =>
      simp only [Option.some.injEq, List.any_eq_true, decide_eq_true_eq]
      constructor
      · exact fun hex => Or.inr hex
      · rintro (hsuf | hex)
        · exact absurd hsuf h
        · exact hex
  · intro s
    constructor
    · intro h
      by_cases hd : s.data = []
      · rw [show _is_pdf_url nfkc (.vStr s) = some false from by
          simp only [_is_pdf_url, if_pos hd]] at h
        exact absurd h (by simp)
      · refine ⟨fun hse => hd (by rw [hse]), ?_⟩
        cases hp : urlPath nfkc s.data with
        | none => rfl
        | some q =>
          simp only [_is_pdf_url, if_neg hd, hp] at h
          split at h <;> exact absurd h (by simp)
    · rintro ⟨hne, hnone⟩
      have hd : ¬(s.data = []) := fun h => hne (by
        cases s with
        | mk data => simp only at h; rw [h])
      simp only [_is_pdf_url, if_neg hd, hnone]

theorem C5_amended_witness :
    _is_pdf_url (fun l => l) (.vStr "https://example.org/paper.pdf") =
        some true ↔
      ".pdf".data.isSuffixOf ("/paper.pdf".data.map toLowerAscii) = true ∨
        ∃ p ∈ pdf_patterns,
          p <:+: "https://example.org/paper.pdf".data.map toLowerAscii :=
  (C5_amended_is_pdf_url_algorithm (fun l => l)).1
    "https://example.org/paper.pdf" "/paper.pdf".data (by decide) rfl

/-! ## C10 — the implicit `pdf`-substring refinement claim -/

/-- C10 counterexample: the URL `http://x/a.p\tdf` (an embedded tab) is
classified as a PDF — `urlsplit` deletes tab/CR/LF, so the parsed path ends
in `.pdf` — yet `pdf` does not occur in the lowercased URL string, so the
claimed equivalence with the bare substring test fails at this non-empty
string. -/
theorem C10_counterexample :
    (∀ nfkc : List Char → List Char,
      _is_pdf_url nfkc (.vStr "http://x/a.p\tdf") = some true) ∧
      classifySpecPdfSubstring "http://x/a.p\tdf" = false ∧
      "http://x/a.p\tdf" ≠ "" :=
  ⟨fun nfkc => rfl, by decide, by decide⟩

theorem prefix_splitParams (l : List Char) : splitParams l <+: l := by
  unfold splitParams
  have hp : ∀ (x : List Char), x.takeWhile (fun c => decide (c ≠ ';')) <+: x :=
    fun x => List.takeWhile_prefix _
  obtain ⟨r, hr⟩ := hp (l.drop (l.length -
    (l.reverse.takeWhile (fun c => c ≠ '/')).length))
  refine ⟨r, ?_⟩
  rw [List.append_assoc, hr, List.take_append_drop]

theorem splitScheme_snd_suffix (l : List Char) : (splitScheme l).2 <:+ l := by
  unfold splitScheme
  dsimp only
  split
  · exact List.drop_suffix _ _
  · exact List.suffix_rfl

theorem dropNetloc_suffix : ∀ {nfkc : List Char → List Char}
    {l p : List Char}, dropNetloc nfkc l = some p → p <:+ l := by
  intro nfkc l p h
  unfold dropNetloc at h
  split at h
  next c1 c2 rest =>
    dsimp only at h
    split at h
    · split at h
      · exact absurd h (by simp)
      · split at h
        · exact absurd h (by simp)
        · split at h
          · exact absurd h (by simp)
          · injection h with h
            rw [← h]
            exact (rest.dropWhile_suffix _).trans ⟨[c1, c2], rfl⟩
    · injection h with h
      rw [← h]
  next =>
    injection h with h
    rw [← h]

/-- When the parse succeeds, the parsed path is a contiguous substring of
the sanitized URL. -/
theorem urlPath_infix_sanitize {nfkc : List Char → List Char}
    {l p : List Char} (h : urlPath nfkc l = some p) :
    p <:+: sanitizeUrl l := by
  have h1 : stripFragment (sanitizeUrl l) <+: sanitizeUrl l :=
    List.takeWhile_prefix _
  have h2 : stripQuery (stripFragment (sanitizeUrl l)) <+:
      stripFragment (sanitizeUrl l) := List.takeWhile_prefix _
  have h3 := splitScheme_snd_suffix (stripQuery (stripFragment (sanitizeUrl l)))
  unfold urlPath at h
  dsimp only at h
  cases hd : dropNetloc nfkc (splitScheme (stripQuery (stripFragment
      (sanitizeUrl l)))).2 with
  | none => rw [hd] at h; exact absurd h (by simp)
  | some q =>
    rw [hd] at h
    injection h with h
    have h4 : q <:+
        (splitScheme (stripQuery (stripFragment (sanitizeUrl l)))).2 :=
      dropNetloc_suffix hd
    have h5 : q <:+: sanitizeUrl l :=
      ((h4.trans h3).isInfix).trans ((h2.trans h1).isInfix)
    rw [← h]
    split
    · exact (prefix_splitParams _).isInfix.trans h5
    · exact h5

/-- With no tab/CR/LF in the URL, `urlsplit`'s sanitization is just the
leading control-character strip. -/
theorem sanitizeUrl_of_clean {l : List Char}
    (h : ∀ c ∈ l, c ≠ '\t' ∧ c ≠ '\r' ∧ c ≠ '\n') :
    sanitizeUrl l = l.dropWhile (fun c => c.toNat ≤ 32) := by
  unfold sanitizeUrl
  apply List.filter_eq_self.mpr
  intro c hc
  have hcl := h c ((l.dropWhile_sublist _).subset hc)
  simp [hcl.1, hcl.2.1, hcl.2.2]

/-- C10 amended: for every non-empty URL string free of tab, CR and LF
characters on which `urlparse` does not raise, the classifier's result is
exactly the single test that `pdf` occurs in the lowercased URL — the
`.pdf` path-suffix check and the other keyword patterns are subsumed by the
bare `pdf` substring pattern.  (With tab/CR/LF present the equivalence can
fail because `urlsplit` deletes them before parsing; and on a mismatched
square bracket in the netloc the classifier raises `ValueError` and has no
result at all.) -/
theorem C10_amended_pdf_substring_equiv (nfkc : List Char → List Char)
    (s : String) (rawPath : List Char) (hne : s ≠ "")
    (hclean : ∀ c ∈ s.data, c ≠ '\t' ∧ c ≠ '\r' ∧ c ≠ '\n')
    (hpath : urlPath nfkc s.data = some rawPath) :
    _is_pdf_url nfkc (.vStr s) = some (classifySpecPdfSubstring s) := by
  have hd : ¬(s.data = []) := fun h => hne (by
    cases s with
    | mk data => simp only at h; rw [h])
  simp only [_is_pdf_url, if_neg hd, hpath]
  split
  next hsuf =>
    have h1 : ".pdf".data <:+ rawPath.map toLowerAscii :=
      List.isSuffixOf_iff_suffix.mp hsuf
    have h2 : "pdf".data <:+: ".pdf".data := by decide
    have h3 : rawPath <:+: s.data := by
      have h4 := urlPath_infix_sanitize hpath
      rw [sanitizeUrl_of_clean hclean] at h4
      exact h4.trans (s.data.dropWhile_suffix _).isInfix
    have hocc : "pdf".data <:+: s.data.map toLowerAscii :=
      (h2.trans h1.isInfix).trans (h3.map toLowerAscii)
    rw [show classifySpecPdfSubstring s = true from decide_eq_true hocc]
  next hsuf =>
    refine congrArg some ?_
    apply Bool.eq_iff_iff.mpr
    simp only [classifySpecPdfSubstring, List.any_eq_true, decide_eq_true_eq]
    constructor
    · rintro ⟨p, hp, hinf⟩
      have hall : ∀ q ∈ pdf_patterns, "pdf".data <:+: q := by decide
      exact (hall p hp).trans hinf
    · intro hspec
      exact ⟨"pdf".data, by decide, hspec⟩

theorem C10_amended_witness :
    _is_pdf_url (fun l => l) (.vStr "http://pdf.example.com/page.html") =
      some (classifySpecPdfSubstring "http://pdf.example.com/page.html") :=
  C10_amended_pdf_substring_equiv (fun l => l) _ "/page.html".data (by decide)
    (by decide) rfl

/-! ## C1 — reconciler merge frame property -/

/-- C1 counterexample: merging the empty mapping into a table that already
has a `Methodology` column is not a no-op — `df['Methodology'] = ''` resets
every cell of that column before the keyed fill, blanking the stored value of
a row absent from the mapping. -/
theorem C1_counterexample :
    update_google_sheet_with_methodology
        ⟨["PDF ID", "Methodology"], [["a1b2c3d4", "old"]]⟩ [] ≠
      ⟨["PDF ID", "Methodology"], [["a1b2c3d4", "old"]]⟩ ∧
    (update_google_sheet_with_methodology
        ⟨["PDF ID", "Methodology"], [["a1b2c3d4", "old"]]⟩ []).rows =
      [["a1b2c3d4", ""]] :=
  ⟨by decide, by decide⟩

theorem findIdx?_append_left {α : Type} {p : α → Bool} {l₁ : List α}
    (l₂ : List α) {i : Nat} (h : l₁.findIdx? p = some i) :
    (l₁ ++ l₂).findIdx? p = some i := by
  rw [List.findIdx?_append, h]; rfl

theorem findIdx?_append_none {α : Type} {p : α → Bool} {l₁ l₂ : List α}
    (h₁ : l₁.findIdx? p = none) (h₂ : l₂.findIdx? p = none) :
    (l₁ ++ l₂).findIdx? p = none := by
  rw [List.findIdx?_append, h₁, h₂]; rfl

theorem getD_getElem?_append_single (r : List String) (ip : Nat) (v : String) :
    ((r ++ [v])[ip]?).getD v = (r[ip]?).getD v := by
  rw [List.getElem?_append]
  split
  · rfl
  · next h =>
    have h1 : (r : List String)[ip]? = none :=
      List.getElem?_eq_none (Nat.le_of_not_lt h)
    rw [h1]
    rcases Nat.lt_or_ge (ip - r.length) 1 with h2 | h2
    · have h3 : ip - r.length = 0 := by omega
      rw [h3]
      rfl
    · have h3 : ([v] : List String)[ip - r.length]? = none :=
        List.getElem?_eq_none (by simpa using h2)
      rw [h3]

/-- C1 amended: on a table with no pre-existing `Methodology` column, merging
the empty mapping yields the table unchanged except for the appended (empty)
`Methodology` column; and for any mapping, a row whose `PDF ID` has no
matching key comes through as the original row plus an *empty* `Methodology`
cell — the merge resets the cell rather than keeping a prior value. -/
theorem C1_amended (t : Table) (hno : "Methodology" ∉ t.headers) :
    (update_google_sheet_with_methodology t [] =
      ⟨t.headers ++ ["Methodology"], t.rows.map (fun r => r ++ [""])⟩)
    ∧ ∀ (summaries : List (String × String)) (i : Nat) (r : List String),
        t.rows[i]? = some r →
        (∀ ip, t.headers.findIdx? (fun h => h = "PDF ID") = some ip →
          lookupAssoc summaries (pyStripStr ((r[ip]?).getD "")) = none) →
        (update_google_sheet_with_methodology t summaries).rows[i]? =
          some (r ++ [""]) := by
  have hmn : t.headers.findIdx? (fun h => h = "Methodology") = none := by
    apply List.findIdx?_eq_none_iff.mpr
    intro x hx
    simp only [decide_eq_false_iff_not]
    rintro rfl
    exact hno hx
  have hset : setColumn t "Methodology" "" =
      ⟨t.headers ++ ["Methodology"], t.rows.map (fun r => r ++ [""])⟩ := by
    unfold setColumn
    rw [hmn]
  have hmIdx : (t.headers ++ ["Methodology"]).findIdx?
      (fun h => h = "Methodology") = some t.headers.length := by
    rw [List.findIdx?_append, hmn]
    simp [List.findIdx?_cons]
  cases hip : t.headers.findIdx? (fun h => h = "PDF ID") with
  | none =>
    have hip' : (t.headers ++ ["Methodology"]).findIdx?
        (fun h => h = "PDF ID") = none :=
      findIdx?_append_none hip (by decide)
    constructor
    · simp only [update_google_sheet_with_methodology]
      rw [hset]
      simp only [hip']
    · intro summaries i r hri _
      simp only [update_google_sheet_with_methodology]
      rw [hset]
      simp only [hip']
      simp [List.getElem?_map, hri]
  | some ip =>
    have hip' : (t.headers ++ ["Methodology"]).findIdx?
        (fun h => h = "PDF ID") = some ip :=
      findIdx?_append_left _ hip
    constructor
    · simp only [update_google_sheet_with_methodology]
      rw [hset]
      simp only [hip', hmIdx]
      apply congrArg (Table.mk (t.headers ++ ["Methodology"]))
      conv_rhs => rw [← List.map_id (List.map (fun r => r ++ [""]) t.rows)]
      apply List.map_congr_left
      intro a _
      rfl
    · intro summaries i r hri hnone
      simp only [update_google_sheet_with_methodology]
      rw [hset]
      simp only [hip', hmIdx]
      simp only [List.getElem?_map, hri, Option.map_map, Option.map_some',
        Function.comp_apply]
      have hlook : lookupAssoc summaries
          (pyStripStr (((r ++ [""])[ip]?).getD "")) = none := by
        rw [getD_getElem?_append_single]
        exact hnone ip rfl
      rw [hlook]

theorem C1_amended_witness :
    update_google_sheet_with_methodology ⟨["PDF ID"], [["x1"]]⟩ [] =
      ⟨["PDF ID", "Methodology"], [["x1", ""]]⟩ := by
  have h := (C1_amended ⟨["PDF ID"], [["x1"]]⟩ (by decide)).1
  rw [h]; rfl

/-! ## C9 — sheet write-back serialization and range -/

/-- C9 counterexample: the header row is emitted as-is, so a header cell
containing a newline reaches the payload with the newline intact —
contradicting "every value ... every embedded newline ... replaced by a
space". -/
theorem C9_counterexample :
    updatePayload ⟨["a\nb"], [["x"]]⟩ = [["a\nb"], ["x"]] ∧
      '\n' ∈ "a\nb".data :=
  ⟨by decide, by decide⟩

/-- C9 amended: the write-back serializes the merged table as the header row
emitted as-is followed by the data rows with every data value stringified
and every newline/carriage-return replaced by a space, and addresses the
write range as `<sheet>!A1:<endCol><endRow>` where `endCol` is the character
`chr(ord('A') + N - 1)` — the Nth letter of the alphabet whenever the header
count N is between 1 and 26 — and `endRow` is the data row count plus one
(the header). -/
theorem C9_amended (worksheet : String) (t : Table) :
    (updatePayload t).length = 1 + t.rows.length
    ∧ (updatePayload t).head? = some t.headers
    ∧ (∀ i : Nat, (updatePayload t)[i + 1]? =
        (t.rows[i]?).map (fun r => r.map sanitizeCell))
    ∧ (∀ s : String, ∀ c ∈ (sanitizeCell s).data, c ≠ '\n' ∧ c ≠ '\r')
    ∧ updateRange worksheet t =
        worksheet ++ "!A1:" ++
          String.singleton (Char.ofNat ('A'.toNat + t.headers.length - 1)) ++
          toString (1 + t.rows.length)
    ∧ (1 ≤ t.headers.length → t.headers.length ≤ 26 →
        'A' ≤ Char.ofNat ('A'.toNat + t.headers.length - 1) ∧
          Char.ofNat ('A'.toNat + t.headers.length - 1) ≤ 'Z' ∧
          (Char.ofNat ('A'.toNat + t.headers.length - 1)).toNat - 'A'.toNat + 1 =
            t.headers.length) := by
  refine ⟨by simp [updatePayload, Nat.add_comm], rfl, ?_, ?_, rfl, ?_⟩
  · intro i
    simp [updatePayload, List.getElem?_map]
  · intro s c hc
    simp only [sanitizeCell, List.mem_map] at hc
    obtain ⟨d, _, rfl⟩ := hc
    constructor
    · split
      · decide
      · split
        · decide
        · next h1 h2 => exact h1
    · split
      · decide
      · split
        · decide
        · next h1 h2 => exact h2
  · intro h1 h26
    have hN : ∃ n : Nat, t.headers.length = n := ⟨_, rfl⟩
    obtain ⟨n, hn⟩ := hN
    rw [hn] at h1 h26 ⊢
    interval_cases n <;> exact ⟨by decide, by decide, by decide⟩

/-! ## C2 / C6 — the download pass -/

theorem processRowsFrom_getElem (nfkc : List Char → List Char)
    (il ia ii ip : Nat) (idGen : Nat → String) (dl : Nat → Bool) :
    ∀ (rs : List (List String)) (i j : Nat),
      (processRowsFrom nfkc il ia ii ip idGen dl i rs)[j]? =
        (rs[j]?).map
          (processRow nfkc il ia ii ip (idGen (i + j)) (dl (i + j))) := by
  intro rs
  induction rs with
  | nil => intro i j; simp [processRowsFrom]
  | cons r rs ih =>
    intro i j
    cases j with
    | zero => simp [processRowsFrom]
    | succ j =>
      simp only [processRowsFrom, List.getElem?_cons_succ]
      have harith : i + (j + 1) = (i + 1) + j := by omega
      rw [harith, ih (i + 1) j]

/-- Under the usual shape hypotheses — the link column present, the three
pipeline columns not yet present — the download pass appends the three
status columns (initialized `No` / empty / empty) and then processes each
row in order. -/
theorem process_links_setup (t : Table) (linkCol : String)
    (nfkc : List Char → List Char) (idGen : Nat → String) (dl : Nat → Bool)
    (il0 : Nat)
    (hlink : t.headers.findIdx? (fun h => h = linkCol) = some il0)
    (ha : "PDF Available" ∉ t.headers) (hi : "PDF ID" ∉ t.headers)
    (hp : "PDF Path" ∉ t.headers) :
    process_links_and_download_pdfs t linkCol nfkc idGen dl =
      ⟨t.headers ++ ["PDF Available", "PDF ID", "PDF Path"],
        processRowsFrom nfkc il0 t.headers.length (t.headers.length + 1)
          (t.headers.length + 2) idGen dl 0
          (t.rows.map (fun r => r ++ ["No", "", ""]))⟩ := by
  have hnone : ∀ (name : String), name ∉ t.headers →
      t.headers.findIdx? (fun h => h = name) = none := by
    intro name hn
    apply List.findIdx?_eq_none_iff.mpr
    intro x hx
    simp only [decide_eq_false_iff_not]
    rintro rfl
    exact hn hx
  have hs1 : setColumn t "PDF Available" "No" =
      ⟨t.headers ++ ["PDF Available"], t.rows.map (fun r => r ++ ["No"])⟩ := by
    unfold setColumn; rw [hnone _ ha]
  have hn2 : (t.headers ++ ["PDF Available"]).findIdx?
      (fun h => h = "PDF ID") = none :=
    findIdx?_append_none (hnone _ hi) (by decide)
  have hs2 : setColumn ⟨t.headers ++ ["PDF Available"],
        t.rows.map (fun r => r ++ ["No"])⟩ "PDF ID" "" =
      ⟨(t.headers ++ ["PDF Available"]) ++ ["PDF ID"],
        (t.rows.map (fun r => r ++ ["No"])).map (fun r => r ++ [""])⟩ := by
    unfold setColumn; rw [hn2]
  have hn3 : ((t.headers ++ ["PDF Available"]) ++ ["PDF ID"]).findIdx?
      (fun h => h = "PDF Path") = none :=
    findIdx?_append_none (findIdx?_append_none (hnone _ hp) (by decide)) (by decide)
  have hs3 : setColumn ⟨(t.headers ++ ["PDF Available"]) ++ ["PDF ID"],
        (t.rows.map (fun r => r ++ ["No"])).map (fun r => r ++ [""])⟩
        "PDF Path" "" =
      ⟨((t.headers ++ ["PDF Available"]) ++ ["PDF ID"]) ++ ["PDF Path"],
        ((t.rows.map (fun r => r ++ ["No"])).map (fun r => r ++ [""])).map
          (fun r => r ++ [""])⟩ := by
    unfold setColumn; rw [hn3]
  have hH : ((t.headers ++ ["PDF Available"]) ++ ["PDF ID"]) ++ ["PDF Path"] =
      t.headers ++ ["PDF Available", "PDF ID", "PDF Path"] := by
    simp [List.append_assoc]
  have hrows : ((t.rows.map (fun r => r ++ ["No"])).map (fun r => r ++ [""])).map
      (fun r => r ++ [""]) = t.rows.map (fun r => r ++ ["No", "", ""]) := by
    simp only [List.map_map]
    apply List.map_congr_left
    intro a _
    simp [List.append_assoc]
  have hidxLink : (t.headers ++ ["PDF Available", "PDF ID", "PDF Path"]).findIdx?
      (fun h => h = linkCol) = some il0 := findIdx?_append_left _ hlink
  have hidxA : (t.headers ++ ["PDF Available", "PDF ID", "PDF Path"]).findIdx?
      (fun h => h = "PDF Available") = some t.headers.length := by
    rw [List.findIdx?_append, hnone _ ha]
    simp
  have hidxI : (t.headers ++ ["PDF Available", "PDF ID", "PDF Path"]).findIdx?
      (fun h => h = "PDF ID") = some (t.headers.length + 1) := by
    rw [List.findIdx?_append, hnone _ hi]
    have h2 : (["PDF Available", "PDF ID", "PDF Path"] : List String).findIdx?
        (fun h => h = "PDF ID") = some 1 := by decide
    rw [h2]
    simp [Nat.add_comm]
  have hidxP : (t.headers ++ ["PDF Available", "PDF ID", "PDF Path"]).findIdx?
      (fun h => h = "PDF Path") = some (t.headers.length + 2) := by
    rw [List.findIdx?_append, hnone _ hp]
    have h2 : (["PDF Available", "PDF ID", "PDF Path"] : List String).findIdx?
        (fun h => h = "PDF Path") = some 2 := by decide
    rw [h2]
    simp [Nat.add_comm]
  simp only [process_links_and_download_pdfs, hlink]
  rw [hs1, hs2, hs3]
  simp only [hH, hrows]
  rw [hidxLink, hidxA, hidxI, hidxP]
  rfl

theorem cell_append3 (r : List String) (a b c : String) :
    ((r ++ [a, b, c])[r.length]? = some a) ∧
      ((r ++ [a, b, c])[r.length + 1]? = some b) ∧
      ((r ++ [a, b, c])[r.length + 2]? = some c) := by
  refine ⟨?_, ?_, ?_⟩ <;>
    rw [List.getElem?_append_right (by omega)] <;>
    · have h : ∀ k : Nat, r.length + k - r.length = k := fun k => by omega
      first
        | (rw [Nat.sub_self]; rfl)
        | (rw [h 1]; rfl)
        | (rw [h 2]; rfl)

theorem set_append3_0 (r : List String) (a b c v : String) :
    (r ++ [a, b, c]).set r.length v = r ++ [v, b, c] := by
  rw [List.set_append, if_neg (by omega), Nat.sub_self]
  rfl

theorem set_append3_1 (r : List String) (a b c v : String) :
    (r ++ [a, b, c]).set (r.length + 1) v = r ++ [a, v, c] := by
  rw [List.set_append, if_neg (by omega),
    (by omega : r.length + 1 - r.length = 1)]
  rfl

theorem set_append3_2 (r : List String) (a b c v : String) :
    (r ++ [a, b, c]).set (r.length + 2) v = r ++ [a, b, v] := by
  rw [List.set_append, if_neg (by omega),
    (by omega : r.length + 2 - r.length = 2)]
  rfl

/-- C2: after the download pass over a table that has the link column (and
no pipeline columns yet), every row showing `PDF Available = Yes` carries a
non-empty 8-character `PDF ID` and a `PDF Path` ending in `<PDF ID>.pdf`,
and every row showing `No` or `Failed` has empty `PDF ID` and `PDF Path`. -/
theorem C2_download_invariant (t : Table) (linkCol : String)
    (nfkc : List Char → List Char) (idGen : Nat → String) (dl : Nat → Bool)
    (il0 : Nat)
    (hlink : t.headers.findIdx? (fun h => h = linkCol) = some il0)
    (ha : "PDF Available" ∉ t.headers) (hi : "PDF ID" ∉ t.headers)
    (hp : "PDF Path" ∉ t.headers)
    (hwf : ∀ r ∈ t.rows, r.length = t.headers.length)
    (hid : ∀ n, (idGen n).length = 8) :
    ∀ (j : Nat) (r' : List String),
      (process_links_and_download_pdfs t linkCol nfkc idGen dl).rows[j]? =
        some r' →
      (r'[t.headers.length]? = some "Yes" →
        ∃ uid, r'[t.headers.length + 1]? = some uid ∧ uid ≠ "" ∧
          uid.length = 8 ∧
          ∃ pth, r'[t.headers.length + 2]? = some pth ∧
            (uid ++ ".pdf").data <:+ pth.data)
      ∧ ((r'[t.headers.length]? = some "No" ∨
            r'[t.headers.length]? = some "Failed") →
          r'[t.headers.length + 1]? = some "" ∧
            r'[t.headers.length + 2]? = some "") := by
  intro j r' hr'
  rw [process_links_setup t linkCol nfkc idGen dl il0 hlink ha hi hp] at hr'
  simp only [processRowsFrom_getElem, Nat.zero_add, List.getElem?_map] at hr'
  cases ht : t.rows[j]? with
  | none => rw [ht] at hr'; exact absurd hr' (by simp)
  | some r =>
    rw [ht] at hr'
    simp only [Option.map_some'] at hr'
    have hrl : r.length = t.headers.length :=
      hwf r (List.getElem?_mem ht)
    have hcells := cell_append3 r "No" "" ""
    rw [hrl] at hcells
    injection hr' with hr'
    subst hr'
    unfold processRow
    dsimp only
    split
    · -- blank link: row untouched
      refine ⟨fun hyes => absurd (hcells.1.symm.trans hyes) (by simp), fun _ => ⟨hcells.2.1, hcells.2.2⟩⟩
    · split
      · -- classified as PDF
        split
        · -- download succeeded
          have hset : (((r ++ ["No", "", ""]).set t.headers.length "Yes").set
                (t.headers.length + 1) (idGen j)).set (t.headers.length + 2)
                (pdfPathFor (idGen j)) =
              r ++ ["Yes", idGen j, pdfPathFor (idGen j)] := by
            rw [← hrl, set_append3_0, set_append3_1, set_append3_2]
          rw [hset]
          have hcells2 := cell_append3 r "Yes" (idGen j) (pdfPathFor (idGen j))
          rw [hrl] at hcells2
          constructor
          · intro _
            refine ⟨idGen j, hcells2.2.1, ?_, hid j, pdfPathFor (idGen j),
              hcells2.2.2, ?_⟩
            · intro hempty
              have := hid j
              rw [hempty] at this
              simp at this
            · refine ⟨"papers_pdf_id/".data, ?_⟩
              show "papers_pdf_id/".data ++ ((idGen j) ++ ".pdf").data =
                (pdfPathFor (idGen j)).data
              rw [String.data_append]
              unfold pdfPathFor
              rw [String.data_append, String.data_append, List.append_assoc]
          · intro hno
            rcases hno with hno | hno <;>
              exact absurd (hcells2.1.symm.trans hno) (by simp)
        · -- download failed
          have hset : (r ++ ["No", "", ""]).set t.headers.length "Failed" =
              r ++ ["Failed", "", ""] := by
            rw [← hrl, set_append3_0]
          rw [hset]
          have hcells2 := cell_append3 r "Failed" "" ""
          rw [hrl] at hcells2
          exact ⟨fun hyes => absurd (hcells2.1.symm.trans hyes) (by simp),
            fun _ => ⟨hcells2.2.1, hcells2.2.2⟩⟩
      · -- not classified: row untouched
        exact ⟨fun hyes => absurd (hcells.1.symm.trans hyes) (by simp),
          fun _ => ⟨hcells.2.1, hcells.2.2⟩⟩

theorem C2_download_invariant_witness :
    ((["http://x/a.pdf", "Yes", "abcd1234", "papers_pdf_id/abcd1234.pdf"] :
        List String)[1]? = some "Yes" →
      ∃ uid, (["http://x/a.pdf", "Yes", "abcd1234",
          "papers_pdf_id/abcd1234.pdf"] : List String)[2]? = some uid ∧
        uid ≠ "" ∧ uid.length = 8 ∧
        ∃ pth, (["http://x/a.pdf", "Yes", "abcd1234",
            "papers_pdf_id/abcd1234.pdf"] : List String)[3]? = some pth ∧
          (uid ++ ".pdf").data <:+ pth.data)
    ∧ (((["http://x/a.pdf", "Yes", "abcd1234", "papers_pdf_id/abcd1234.pdf"] :
          List String)[1]? = some "No" ∨
        (["http://x/a.pdf", "Yes", "abcd1234", "papers_pdf_id/abcd1234.pdf"] :
          List String)[1]? = some "Failed") →
        (["http://x/a.pdf", "Yes", "abcd1234", "papers_pdf_id/abcd1234.pdf"] :
          List String)[2]? = some "" ∧
        (["http://x/a.pdf", "Yes", "abcd1234", "papers_pdf_id/abcd1234.pdf"] :
          List String)[3]? = some "") :=
  C2_download_invariant ⟨["link"], [["http://x/a.pdf"]]⟩ "link" (fun l => l)
    (fun _ => "abcd1234") (fun _ => true) 0 (by decide) (by decide) (by decide)
    (by decide) (by decide) (fun _ => rfl) 0 _ (by decide)

/-- C6: a classified row whose download fails is marked `Failed` with `PDF
ID` and `PDF Path` left empty, and processing continues — every other row's
outcome is unchanged if the failing download is replaced by any other
outcome. -/
theorem C6_failed_download (t : Table) (linkCol : String)
    (nfkc : List Char → List Char) (idGen : Nat → String) (dl : Nat → Bool)
    (il0 : Nat)
    (hlink : t.headers.findIdx? (fun h => h = linkCol) = some il0)
    (ha : "PDF Available" ∉ t.headers) (hi : "PDF ID" ∉ t.headers)
    (hp : "PDF Path" ∉ t.headers)
    (hwf : ∀ r ∈ t.rows, r.length = t.headers.length)
    (j : Nat) (r : List String)
    (hrj : t.rows[j]? = some r)
    (hurl : pyStripStr ((r[il0]?).getD "") ≠ "")
    (hpdf : _is_pdf_url nfkc (.vStr ((r[il0]?).getD "")) = some true)
    (hfail : dl j = false) :
    ((process_links_and_download_pdfs t linkCol nfkc idGen dl).rows[j]? =
        some (r ++ ["Failed", "", ""]))
    ∧ ∀ (dl' : Nat → Bool), (∀ k, k ≠ j → dl' k = dl k) →
        ∀ k, k ≠ j →
          (process_links_and_download_pdfs t linkCol nfkc idGen dl').rows[k]? =
            (process_links_and_download_pdfs t linkCol nfkc idGen
              dl).rows[k]? := by
  have hil0 : il0 < t.headers.length :=
    (List.findIdx?_eq_some_iff_findIdx_eq.mp hlink).1
  constructor
  · rw [process_links_setup t linkCol nfkc idGen dl il0 hlink ha hi hp]
    simp only [processRowsFrom_getElem, Nat.zero_add, List.getElem?_map, hrj,
      Option.map_some']
    have hrl : r.length = t.headers.length := hwf r (List.getElem?_mem hrj)
    have hurl' : ((r ++ ["No", "", ""])[il0]?).getD "" = (r[il0]?).getD "" := by
      rw [List.getElem?_append]
      rw [if_pos (by omega : il0 < r.length)]
    unfold processRow
    dsimp only
    rw [hurl']
    rw [if_neg hurl, if_pos hpdf, if_neg (by rw [hfail]; exact Bool.false_ne_true)]
    rw [← hrl, set_append3_0]
  · intro dl' hagree k hk
    rw [process_links_setup t linkCol nfkc idGen dl il0 hlink ha hi hp,
      process_links_setup t linkCol nfkc idGen dl' il0 hlink ha hi hp]
    simp only [processRowsFrom_getElem, Nat.zero_add]
    rw [hagree k hk]

theorem C6_failed_download_witness :
    (process_links_and_download_pdfs ⟨["link"], [["http://x/a.pdf"]]⟩ "link"
        (fun l => l) (fun _ => "abcd1234") (fun _ => false)).rows[0]? =
      some (["http://x/a.pdf"] ++ ["Failed", "", ""]) :=
  (C6_failed_download ⟨["link"], [["http://x/a.pdf"]]⟩ "link" (fun l => l)
    (fun _ => "abcd1234") (fun _ => false) 0 (by decide) (by decide) (by decide)
    (by decide) (by decide) 0 ["http://x/a.pdf"] (by decide) (by decide)
    (by decide) rfl).1

/-! ## C7 — Strategy A failure hands over to Strategy B -/

/-- C7 counterexample: when the upload itself raises ("throws during
upload"), `generate_methodology_summary` returns `None` without ever
invoking Strategy B — zero chat-completion calls, not exactly one. -/
theorem C7_counterexample :
    chatCalls (generate_methodology_summary
        ⟨none, false, fun _ => "failed", "resp", some "chat"⟩ 5).2 = [] ∧
      (generate_methodology_summary
        ⟨none, false, fun _ => "failed", "resp", some "chat"⟩ 5).1 = none :=
  ⟨rfl, rfl⟩

/-- C7 amended: after a *successful* upload, whenever Strategy A fails —
it raises, or its polling loop ends in a terminal state other than
`completed` — Strategy B is invoked exactly once, with a prompt containing
the upload reference (file id) string, and Strategy A is invoked exactly
once (never retried); when the upload itself fails, no strategy is invoked
at all and no summary is produced. -/
theorem C7_amended (env : ExtractionEnv) (fuel : Nat) (fid : String)
    (hup : env.uploadOutcome = some fid)
    (hA : generate_methodology_summary_with_assistants env fuel = none) :
    (chatCalls (generate_methodology_summary env fuel).2 =
        [.chatCompletion (chatPrompt fid)]
      ∧ (∃ a b : String, chatPrompt fid = a ++ fid ++ b)
      ∧ assistantsCalls (generate_methodology_summary env fuel).2 =
        [.assistantsRun fid])
    ∧ (∀ env' : ExtractionEnv, env'.uploadOutcome = none →
        (generate_methodology_summary env' fuel).2 = [] ∧
          (generate_methodology_summary env' fuel).1 = none) := by
  constructor
  · simp only [generate_methodology_summary, hup, hA]
    exact ⟨rfl, ⟨"I have uploaded a PDF file with ID: ", chatPromptTail fid, rfl⟩, rfl⟩
  · intro env' h'
    exact ⟨by simp only [generate_methodology_summary, h'],
           by simp only [generate_methodology_summary, h']⟩

theorem C7_amended_witness :
    chatCalls (generate_methodology_summary
        ⟨some "file-abc", false, fun _ => "failed", "resp", some "summary"⟩ 3).2 =
      [ApiCall.chatCompletion (chatPrompt "file-abc")] :=
  (C7_amended ⟨some "file-abc", false, fun _ => "failed", "resp", some "summary"⟩
    3 "file-abc" rfl rfl).1.1

/-! ## C8 — terminal extraction failure yields the sentinel entry -/

/-- C8: the batch maps every stored PDF to one summaries entry in order, and
a document whose extraction fails under both strategies gets the fixed
sentinel string `Failed to generate summary` at its position — later
documents are still processed (the mapping keeps one entry per file). -/
theorem C8_sentinel (files : List (String × ExtractionEnv)) (fuel : Nat) :
    (process_all_pdfs files fuel).length = files.length
    ∧ ∀ (i : Nat) (stem : String) (env : ExtractionEnv),
        files[i]? = some (stem, env) →
        (generate_methodology_summary env fuel).1 = none →
        (process_all_pdfs files fuel)[i]? =
          some (stem, "Failed to generate summary") := by
  constructor
  · simp [process_all_pdfs]
  · intro i stem env hfe hnone
    simp only [process_all_pdfs, List.getElem?_map, hfe, Option.map_some']
    rw [hnone]

theorem C8_sentinel_witness :
    (process_all_pdfs [("doc1", ⟨none, false, fun _ => "queued", "r", none⟩)] 2)[0]? =
      some ("doc1", "Failed to generate summary") :=
  (C8_sentinel [("doc1", ⟨none, false, fun _ => "queued", "r", none⟩)] 2).2
    0 "doc1" ⟨none, false, fun _ => "queued", "r", none⟩ rfl rfl

theorem C9_amended_witness :
    'A' ≤ Char.ofNat ('A'.toNat + (["A", "B", "C"] : List String).length - 1) ∧
      Char.ofNat ('A'.toNat + (["A", "B", "C"] : List String).length - 1) ≤ 'Z' ∧
      (Char.ofNat ('A'.toNat + (["A", "B", "C"] : List String).length - 1)).toNat -
          'A'.toNat + 1 = (["A", "B", "C"] : List String).length :=
  (C9_amended "Sheet1" ⟨["A", "B", "C"], []⟩).2.2.2.2.2 (by decide) (by decide)

/-! ## C3 — formatter idempotence

### Unfolding and structure lemmas for the three substitution passes -/

theorem wsSkipLastNl_some_length : ∀ {l rest : List Char},
    wsSkipLastNl l = some rest → rest.length < l.length := by
  intro l
  induction l with
  | nil => intro rest h; simp [wsSkipLastNl] at h
  | cons d ds ih =>
    intro rest h
    simp only [wsSkipLastNl] at h
    split at h
    · split at h
      · cases h
        exact Nat.lt_succ_of_lt (ih ‹_›)
      · split at h
        · cases h; exact Nat.lt_succ_self _
        · exact absurd h (by simp)
    · exact absurd h (by simp)

theorem wsSkipLastNl_none_iff (l : List Char) :
    wsSkipLastNl l = none ↔ '\n' ∉ l.takeWhile isPySpace := by
  induction l with
  | nil => simp [wsSkipLastNl]
  | cons c cs ih =>
    cases hsp : isPySpace c with
    | false =>
      rw [wsSkipLastNl]
      simp [hsp, List.takeWhile_cons]
    | true =>
      rw [wsSkipLastNl]
      simp only [hsp, if_true, List.takeWhile_cons, List.mem_cons]
      cases hcs : wsSkipLastNl cs with
      | some r =>
        simp only []
        constructor
        · intro h; exact absurd h (by simp)
        · intro h
          rw [hcs] at ih
          have h2 : '\n' ∉ cs.takeWhile isPySpace := fun hm => h (Or.inr hm)
          have := ih.mpr h2
          exact absurd this (by simp)
      | none =>
        simp only []
        rw [hcs] at ih
        have h2 : '\n' ∉ cs.takeWhile isPySpace := ih.mp rfl
        constructor
        · intro h
          split at h
          · exact absurd h (by simp)
          · intro hor
            rcases hor with hc | hm
            · exact ‹¬(c = '\n')› hc.symm
            · exact h2 hm
        · intro h
          have hcne : ¬(c = '\n') := fun hc => h (Or.inl hc.symm)
          rw [if_neg hcne]

theorem wsSkipLastNl_some_no_nl : ∀ {l rest : List Char},
    wsSkipLastNl l = some rest → '\n' ∉ rest.takeWhile isPySpace := by
  intro l
  induction l with
  | nil => intro rest h; simp [wsSkipLastNl] at h
  | cons c cs ih =>
    intro rest h
    simp only [wsSkipLastNl] at h
    split at h
    · split at h
      next r hr =>
        cases h
        exact ih hr
      next hr =>
        split at h
        · cases h
          exact (wsSkipLastNl_none_iff cs).mp hr
        · exact absurd h (by simp)
    · exact absurd h (by simp)

theorem subNl_nil : subNl [] = [] := by rw [subNl]

theorem subSpaces_nil : subSpaces [] = [] := by rw [subSpaces]

theorem subBullets_nil (b : Bool) : subBullets b [] = [] := by rw [subBullets]

theorem subNl_cons_not_nl {c : Char} (cs : List Char) (h : ¬(c = '\n')) :
    subNl (c :: cs) = c :: subNl cs := by
  rw [subNl, if_neg h]

theorem subNl_cons_nl_none {cs : List Char} (h : wsSkipLastNl cs = none) :
    subNl ('\n' :: cs) = '\n' :: subNl cs := by
  rw [subNl, if_pos rfl]
  split
  next heq => rw [heq] at h; exact absurd h (by simp)
  next heq => rfl

theorem subNl_cons_nl_some {cs rest : List Char}
    (h : wsSkipLastNl cs = some rest) :
    subNl ('\n' :: cs) = '\n' :: subNl rest := by
  rw [subNl, if_pos rfl]
  split
  next rest2 heq =>
    rw [heq] at h
    injection h with h
    rw [h]
  next heq => rw [heq] at h; exact absurd h (by simp)

theorem subNl_append_not_nl {u : List Char} (v : List Char)
    (h : ∀ c ∈ u, ¬(c = '\n')) : subNl (u ++ v) = u ++ subNl v := by
  induction u with
  | nil => rfl
  | cons c u' ih =>
    rw [List.cons_append, subNl_cons_not_nl _ (h c (List.mem_cons_self c u')),
      ih (fun d hd => h d (List.mem_cons_of_mem c hd))]
    rfl

theorem subNl_of_not_nl {l : List Char} (h : ∀ c ∈ l, ¬(c = '\n')) :
    subNl l = l := by
  have h2 := subNl_append_not_nl [] h
  simpa [subNl_nil] using h2

theorem subNl_head? (l : List Char) : (subNl l).head? = l.head? := by
  match l with
  | [] => rw [subNl_nil]
  | c :: cs =>
    by_cases hc : c = '\n'
    · subst hc
      cases hw : wsSkipLastNl cs with
      | none => rw [subNl_cons_nl_none hw]; rfl
      | some rest => rw [subNl_cons_nl_some hw]; rfl
    · rw [subNl_cons_not_nl _ hc]; rfl

theorem subSpaces_cons_st {c : Char} (cs : List Char) (h : isSpaceTab c = true) :
    subSpaces (c :: cs) = ' ' :: subSpaces (cs.dropWhile isSpaceTab) := by
  rw [subSpaces, if_pos h]

theorem subSpaces_cons_not_st {c : Char} (cs : List Char)
    (h : isSpaceTab c = false) :
    subSpaces (c :: cs) = c :: subSpaces cs := by
  rw [subSpaces, if_neg (by simp [h])]

theorem subSpaces_append_not_st {u : List Char} (v : List Char)
    (h : ∀ c ∈ u, isSpaceTab c = false) : subSpaces (u ++ v) = u ++ subSpaces v := by
  induction u with
  | nil => rfl
  | cons c u' ih =>
    rw [List.cons_append, subSpaces_cons_not_st _ (h c (List.mem_cons_self c u')),
      ih (fun d hd => h d (List.mem_cons_of_mem c hd))]
    rfl

theorem subSpaces_of_not_st {l : List Char} (h : ∀ c ∈ l, isSpaceTab c = false) :
    subSpaces l = l := by
  have h2 := subSpaces_append_not_st [] h
  simpa [subSpaces_nil] using h2

theorem bulletMatch_none_iff (l : List Char) :
    bulletMatch l = none ↔ noBulletAt l = true := by
  unfold bulletMatch noBulletAt
  cases hdw : l.dropWhile isPySpace with
  | nil => simp
  | cons c rest2 =>
    by_cases hc : c = '-'
    · subst hc; simp
    · simp [hc]

theorem bulletMatch_some_suffix : ∀ {l rest : List Char} {b : Bool},
    bulletMatch l = some (rest, b) → rest <:+ l := by
  intro l rest b h
  unfold bulletMatch at h
  split at h
  next c rest2 heq =>
    split at h
    · injection h with h
      have h1 : rest = rest2.dropWhile isPySpace := by
        have := congrArg Prod.fst h
        exact this.symm
      rw [h1]
      calc rest2.dropWhile isPySpace
          <:+ rest2 := rest2.dropWhile_suffix _
        _ <:+ c :: rest2 := ⟨[c], rfl⟩
        _ = l.dropWhile isPySpace := heq.symm
        _ <:+ l := l.dropWhile_suffix _
    · exact absurd h (by simp)
  next heq => exact absurd h (by simp)

theorem subBullets_cons_match {c : Char} {cs rest : List Char} {nl : Bool}
    (h : bulletMatch (c :: cs) = some (rest, nl)) :
    subBullets true (c :: cs) = '•' :: ' ' :: subBullets nl rest := by
  rw [subBullets, if_pos rfl]
  split
  next rest2 nl2 heq =>
    rw [heq] at h
    injection h with h
    have h1 : rest2 = rest := congrArg Prod.fst h
    have h2 : nl2 = nl := congrArg Prod.snd h
    rw [h1, h2]
  next heq => rw [heq] at h; exact absurd h (by simp)

theorem subBullets_cons_nomatch {c : Char} {cs : List Char}
    (h : bulletMatch (c :: cs) = none) :
    subBullets true (c :: cs) = c :: subBullets (c = '\n') cs := by
  rw [subBullets, if_pos rfl]
  split
  next heq => rw [heq] at h; exact absurd h (by simp)
  next heq => rfl

theorem subBullets_cons_false (c : Char) (cs : List Char) :
    subBullets false (c :: cs) = c :: subBullets (c = '\n') cs := by
  rw [subBullets]
  rw [if_neg (by simp)]

theorem subBullets_append_plain : ∀ (u v : List Char) (b : Bool),
    u ≠ [] → (∀ c ∈ u, isPySpace c = false ∧ ¬(c = '-')) →
    subBullets b (u ++ v) = u ++ subBullets false v := by
  intro u
  induction u with
  | nil => intro v b hu h; exact absurd rfl hu
  | cons c u' ih =>
    intro v b hu h
    have hc := h c (List.mem_cons_self c u')
    have hflag : (decide (c = '\n') : Bool) = false := by
      simp only [decide_eq_false_iff_not]
      intro hc2
      rw [hc2] at hc
      exact absurd hc.1 (by decide)
    have hbody : subBullets b (c :: (u' ++ v)) =
        c :: subBullets false (u' ++ v) := by
      cases b with
      | false => rw [subBullets_cons_false, hflag]
      | true =>
        have hnm : bulletMatch (c :: (u' ++ v)) = none := by
          unfold bulletMatch
          rw [List.dropWhile_cons, hc.1]
          simp only [Bool.false_eq_true, if_false]
          rw [if_neg hc.2]
        rw [subBullets_cons_nomatch hnm, hflag]
    rw [List.cons_append, hbody]
    cases hu' : u' with
    | nil =>
      subst hu'
      rfl
    | cons d u'' =>
      rw [← hu']
      rw [ih v false (by rw [hu']; simp)
        (fun d hd => h d (List.mem_cons_of_mem c hd))]
      rfl

theorem subBullets_of_all_ws {l : List Char} (h : ∀ c ∈ l, isPySpace c = true) :
    ∀ b, subBullets b l = l := by
  induction l with
  | nil => intro b; exact subBullets_nil b
  | cons c cs ih =>
    intro b
    have hc := h c (List.mem_cons_self c cs)
    have hbody : ∀ b', subBullets b' (c :: cs) = c :: subBullets (c = '\n') cs := by
      intro b'
      cases b' with
      | false => exact subBullets_cons_false c cs
      | true =>
        have hnm : bulletMatch (c :: cs) = none := by
          unfold bulletMatch
          rw [List.dropWhile_cons]
          simp only [hc, if_true]
          rw [List.dropWhile_eq_nil_iff.mpr
            (fun d hd => h d (List.mem_cons_of_mem c hd))]
        rw [subBullets_cons_nomatch hnm]
    rw [hbody b, ih (fun d hd => h d (List.mem_cons_of_mem c hd))]

/-! ### Fixed points of the first pass -/

theorem all_ne_nl_iff (l : List Char) :
    (l.all (fun d => decide (d ≠ '\n')) = true) ↔ '\n' ∉ l := by
  rw [List.all_eq_true]
  constructor
  · intro h hm
    have h2 := h '\n' hm
    simp at h2
  · intro h d hd
    simp only [decide_eq_true_eq]
    rintro rfl
    exact h hd

theorem dropWhile_head_not (p : Char → Bool) :
    ∀ {l : List Char} {c : Char}, (l.dropWhile p).head? = some c → p c = false := by
  intro l
  induction l with
  | nil => intro c h; simp at h
  | cons d ds ih =>
    intro c h
    rw [List.dropWhile_cons] at h
    split at h
    · exact ih h
    · next hp =>
      injection h with h
      subst h
      exact Bool.not_eq_true _ ▸ by simpa using hp

theorem takeWhile_append_ws (w t : List Char)
    (hw : ∀ c ∈ w, isPySpace c = true) :
    (w ++ t).takeWhile isPySpace = w ++ t.takeWhile isPySpace := by
  induction w with
  | nil => rfl
  | cons c w' ih =>
    rw [List.cons_append, List.takeWhile_cons, hw c (List.mem_cons_self _ _)]
    simp only [if_true]
    rw [ih (fun d hd => hw d (List.mem_cons_of_mem c hd))]
    rfl

theorem takeWhile_nil_of_head (t : List Char)
    (h : ∀ c, t.head? = some c → isPySpace c = false) :
    t.takeWhile isPySpace = [] := by
  cases t with
  | nil => rfl
  | cons c cs => simp [List.takeWhile_cons, h c rfl]

theorem subNl_fix {l : List Char} (h : okSub1 l = true) : subNl l = l := by
  induction l with
  | nil => exact subNl_nil
  | cons c cs ih =>
    simp only [okSub1, Bool.and_eq_true] at h
    by_cases hc : c = '\n'
    · subst hc
      rw [if_pos rfl] at h
      have hnone : wsSkipLastNl cs = none :=
        (wsSkipLastNl_none_iff cs).mpr ((all_ne_nl_iff _).mp h.1)
      rw [subNl_cons_nl_none hnone, ih h.2]
    · rw [subNl_cons_not_nl _ hc, ih h.2]

theorem nl_not_mem_takeWhile_subNl {x : List Char}
    (h : '\n' ∉ x.takeWhile isPySpace) :
    '\n' ∉ (subNl x).takeWhile isPySpace := by
  have hx : x.takeWhile isPySpace ++ x.dropWhile isPySpace = x :=
    x.takeWhile_append_dropWhile isPySpace
  have hww : ∀ c ∈ x.takeWhile isPySpace, isPySpace c = true :=
    fun c hc => List.mem_takeWhile_imp hc
  have hsub : subNl x =
      x.takeWhile isPySpace ++ subNl (x.dropWhile isPySpace) := by
    conv_lhs => rw [← hx]
    exact subNl_append_not_nl _ (fun c hc => by rintro rfl; exact h hc)
  rw [hsub, takeWhile_append_ws _ _ hww]
  have htail : (subNl (x.dropWhile isPySpace)).takeWhile isPySpace = [] := by
    apply takeWhile_nil_of_head
    intro c hc
    rw [subNl_head?] at hc
    exact dropWhile_head_not isPySpace hc
  rw [htail]
  simpa using h

theorem subNl_ok_aux : ∀ (n : Nat) (l : List Char), l.length ≤ n →
    okSub1 (subNl l) = true := by
  intro n
  induction n with
  | zero =>
    intro l hl
    have : l = [] := List.length_eq_zero.mp (Nat.le_zero.mp hl)
    subst this
    rw [subNl_nil]
    rfl
  | succ n ih =>
    intro l hl
    match l with
    | [] => rw [subNl_nil]; rfl
    | c :: cs =>
      have hcs : cs.length ≤ n := by
        have := hl
        simp only [List.length_cons] at this
        omega
      by_cases hc : c = '\n'
      · subst hc
        cases hw : wsSkipLastNl cs with
        | none =>
          rw [subNl_cons_nl_none hw]
          simp only [okSub1, Bool.and_eq_true, if_pos rfl]
          exact ⟨(all_ne_nl_iff _).mpr
              (nl_not_mem_takeWhile_subNl ((wsSkipLastNl_none_iff cs).mp hw)),
            ih cs hcs⟩
        | some rest =>
          rw [subNl_cons_nl_some hw]
          have hrest : rest.length ≤ n := by
            have := wsSkipLastNl_some_length hw
            omega
          simp only [okSub1, Bool.and_eq_true, if_pos rfl]
          exact ⟨(all_ne_nl_iff _).mpr
              (nl_not_mem_takeWhile_subNl (wsSkipLastNl_some_no_nl hw)),
            ih rest hrest⟩
      · rw [subNl_cons_not_nl _ hc]
        simp only [okSub1, Bool.and_eq_true, if_neg hc]
        exact ⟨trivial, ih cs hcs⟩

theorem subNl_ok (l : List Char) : okSub1 (subNl l) = true :=
  subNl_ok_aux l.length l (Nat.le_refl _)

theorem okSub1_suffix : ∀ {l s : List Char}, okSub1 l = true → s <:+ l →
    okSub1 s = true := by
  intro l
  induction l with
  | nil => intro s h hs; rw [List.suffix_nil.mp hs]; rfl
  | cons c cs ih =>
    intro s h hs
    rcases List.suffix_cons_iff.mp hs with hs | hs
    · rw [hs]; exact h
    · simp only [okSub1, Bool.and_eq_true] at h
      exact ih h.2 hs

/-! ### Fixed points of the second pass -/

theorem isPySpace_of_isSpaceTab {d : Char} (h : isSpaceTab d = true) :
    isPySpace d = true := by
  unfold isSpaceTab at h
  rcases (Bool.or_eq_true _ _).mp h with h1 | h1
  · rw [decide_eq_true_eq.mp h1]; decide
  · rw [decide_eq_true_eq.mp h1]; decide

theorem not_space_tab_of_isSpaceTab_false {d : Char} (h : isSpaceTab d = false) :
    ¬(d = ' ') ∧ ¬(d = '\t') := by
  unfold isSpaceTab at h
  constructor <;> rintro rfl <;> simp at h

theorem isSpaceTab_false_of (d : Char) (h1 : ¬(d = ' ')) (h2 : ¬(d = '\t')) :
    isSpaceTab d = false := by
  unfold isSpaceTab
  simp [h1, h2]

theorem subSpaces_fix {l : List Char} (h : okSub2 l = true) : subSpaces l = l := by
  induction l with
  | nil => exact subSpaces_nil
  | cons c cs ih =>
    simp only [okSub2, Bool.and_eq_true] at h
    obtain ⟨⟨hct, hpair⟩, hcs⟩ := h
    by_cases hsp : isSpaceTab c = true
    · have hc : c = ' ' := by
        have hne : ¬(c = '\t') := by simpa using hct
        unfold isSpaceTab at hsp
        rcases (Bool.or_eq_true _ _).mp hsp with h1 | h1
        · exact decide_eq_true_eq.mp h1
        · exact absurd (decide_eq_true_eq.mp h1) hne
      subst hc
      rw [subSpaces_cons_st _ (by decide)]
      rw [if_pos rfl] at hpair
      have hdrop : cs.dropWhile isSpaceTab = cs := by
        cases hcs2 : cs with
        | nil => rfl
        | cons d ds =>
          rw [hcs2] at hpair hcs
          simp only [List.head?_cons] at hpair
          have hd1 : ¬(d = ' ') := by simpa using hpair
          have hd2 : ¬(d = '\t') := by
            simp only [okSub2, Bool.and_eq_true] at hcs
            simpa using hcs.1.1
          rw [List.dropWhile_cons, isSpaceTab_false_of d hd1 hd2]
          simp
      rw [hdrop, ih hcs]
    · rw [subSpaces_cons_not_st _ (by simpa using hsp), ih hcs]

theorem subSpaces_ok_aux : ∀ (n : Nat) (l : List Char), l.length ≤ n →
    okSub2 (subSpaces l) = true := by
  intro n
  induction n with
  | zero =>
    intro l hl
    have h0 : l = [] := List.length_eq_zero.mp (Nat.le_zero.mp hl)
    subst h0
    rw [subSpaces_nil]
    rfl
  | succ n ih =>
    intro l hl
    match l with
    | [] => rw [subSpaces_nil]; rfl
    | c :: cs =>
      have hcs : cs.length ≤ n := by
        simp only [List.length_cons] at hl; omega
      by_cases hsp : isSpaceTab c = true
      · rw [subSpaces_cons_st _ hsp]
        have hrest : (cs.dropWhile isSpaceTab).length ≤ n :=
          le_trans ((cs.dropWhile_sublist isSpaceTab).length_le) hcs
        simp only [okSub2, Bool.and_eq_true]
        refine ⟨⟨by decide, ?_⟩, ih _ hrest⟩
        simp only [if_true]
        cases hd : cs.dropWhile isSpaceTab with
        | nil => rw [subSpaces_nil]; rfl
        | cons d ds =>
          have hdns : isSpaceTab d = false :=
            dropWhile_head_not isSpaceTab
              (show (cs.dropWhile isSpaceTab).head? = some d by rw [hd]; rfl)
          rw [subSpaces_cons_not_st _ hdns]
          simp only [List.head?_cons]
          simpa using (not_space_tab_of_isSpaceTab_false hdns).1
      · rw [subSpaces_cons_not_st _ (by simpa using hsp)]
        simp only [okSub2, Bool.and_eq_true]
        have hct : ¬(c = '\t') := fun hc => hsp (by rw [hc]; decide)
        have hcsp : ¬(c = ' ') := fun hc => hsp (by rw [hc]; decide)
        refine ⟨⟨by simpa using hct, ?_⟩, ih cs hcs⟩
        rw [if_neg hcsp]

theorem subSpaces_ok (l : List Char) : okSub2 (subSpaces l) = true :=
  subSpaces_ok_aux l.length l (Nat.le_refl _)

theorem nl_not_mem_takeWhile_dropWhile_st {x : List Char}
    (h : '\n' ∉ x.takeWhile isPySpace) :
    '\n' ∉ (x.dropWhile isSpaceTab).takeWhile isPySpace := by
  induction x with
  | nil => simpa using h
  | cons d ds ih =>
    by_cases hst : isSpaceTab d = true
    · rw [List.dropWhile_cons, hst]
      simp only [if_true]
      apply ih
      rw [List.takeWhile_cons, isPySpace_of_isSpaceTab hst] at h
      simp only [if_true, List.mem_cons] at h
      exact fun hm => h (Or.inr hm)
    · have hst' : isSpaceTab d = false := by simpa using hst
      rw [List.dropWhile_cons, hst']
      simpa using h

theorem nl_not_mem_takeWhile_subSpaces : ∀ (n : Nat) (x : List Char),
    x.length ≤ n → '\n' ∉ x.takeWhile isPySpace →
    '\n' ∉ (subSpaces x).takeWhile isPySpace := by
  intro n
  induction n with
  | zero =>
    intro x hl h
    have h0 : x = [] := List.length_eq_zero.mp (Nat.le_zero.mp hl)
    subst h0
    rw [subSpaces_nil]
    simpa using h
  | succ n ih =>
    intro x hl h
    match x with
    | [] => rw [subSpaces_nil]; simpa using h
    | c :: cs =>
      have hcs : cs.length ≤ n := by
        simp only [List.length_cons] at hl; omega
      by_cases hsp : isSpaceTab c = true
      · rw [subSpaces_cons_st _ hsp]
        rw [List.takeWhile_cons, isPySpace_of_isSpaceTab hsp] at h
        simp only [if_true, List.mem_cons] at h
        have h2 : '\n' ∉ cs.takeWhile isPySpace := fun hm => h (Or.inr hm)
        have h3 := nl_not_mem_takeWhile_dropWhile_st h2
        have h4 := ih (cs.dropWhile isSpaceTab)
          (le_trans ((cs.dropWhile_sublist isSpaceTab).length_le) hcs) h3
        rw [List.takeWhile_cons]
        simp only [show isPySpace ' ' = true by decide, if_true, List.mem_cons]
        rintro (h5 | h5)
        · exact absurd h5 (by decide)
        · exact h4 h5
      · have hsp' : isSpaceTab c = false := by simpa using hsp
        rw [subSpaces_cons_not_st _ hsp']
        by_cases hws : isPySpace c = true
        · rw [List.takeWhile_cons, hws] at h
          simp only [if_true, List.mem_cons] at h
          have h2 : '\n' ∉ cs.takeWhile isPySpace := fun hm => h (Or.inr hm)
          rw [List.takeWhile_cons, hws]
          simp only [if_true, List.mem_cons]
          rintro (h5 | h5)
          · exact h (Or.inl h5)
          · exact ih cs hcs h2 h5
        · have hws' : isPySpace c = false := by simpa using hws
          rw [List.takeWhile_cons, hws']
          simp

theorem subSpaces_okSub1 : ∀ (n : Nat) (l : List Char), l.length ≤ n →
    okSub1 l = true → okSub1 (subSpaces l) = true := by
  intro n
  induction n with
  | zero =>
    intro l hl _
    have h0 : l = [] := List.length_eq_zero.mp (Nat.le_zero.mp hl)
    subst h0
    rw [subSpaces_nil]
    rfl
  | succ n ih =>
    intro l hl h
    match l with
    | [] => rw [subSpaces_nil]; rfl
    | c :: cs =>
      have hcs : cs.length ≤ n := by
        simp only [List.length_cons] at hl; omega
      simp only [okSub1, Bool.and_eq_true] at h
      by_cases hsp : isSpaceTab c = true
      · rw [subSpaces_cons_st _ hsp]
        simp only [okSub1, Bool.and_eq_true]
        refine ⟨by simp, ?_⟩
        apply ih _ (le_trans ((cs.dropWhile_sublist isSpaceTab).length_le) hcs)
        exact okSub1_suffix h.2 (cs.dropWhile_suffix isSpaceTab)
      · rw [subSpaces_cons_not_st _ (by simpa using hsp)]
        simp only [okSub1, Bool.and_eq_true]
        refine ⟨?_, ih cs hcs h.2⟩
        by_cases hc : c = '\n'
        · subst hc
          rw [if_pos rfl] at h ⊢
          exact (all_ne_nl_iff _).mpr
            (nl_not_mem_takeWhile_subSpaces n cs hcs ((all_ne_nl_iff _).mp h.1))
        · rw [if_neg hc]

/-! ### Fixed points of the third pass -/

theorem bulletMatch_some_length : ∀ {l rest : List Char} {b : Bool},
    bulletMatch l = some (rest, b) → rest.length < l.length := by
  intro l rest b h
  unfold bulletMatch at h
  split at h
  next c rest2 heq =>
    split at h
    · cases h
      calc (rest2.dropWhile isPySpace).length
          ≤ rest2.length := (rest2.dropWhile_sublist isPySpace).length_le
        _ < (c :: rest2).length := Nat.lt_succ_self _
        _ ≤ l.length := by
            rw [← heq]; exact (l.dropWhile_sublist isPySpace).length_le
    · exact absurd h (by simp)
  next heq => exact absurd h (by simp)

theorem bulletMatch_rest_head : ∀ {l rest : List Char} {b : Bool},
    bulletMatch l = some (rest, b) →
    ∀ c, rest.head? = some c → isPySpace c = false := by
  intro l rest b h c hc
  unfold bulletMatch at h
  split at h
  next d rest2 heq =>
    split at h
    · cases h
      exact dropWhile_head_not isPySpace hc
    · exact absurd h (by simp)
  next heq => exact absurd h (by simp)

theorem okSub3_false_of {b : Bool} {l : List Char} (h : okSub3 b l = true) :
    okSub3 false l = true := by
  cases l with
  | nil => rfl
  | cons c cs =>
    simp only [okSub3, Bool.and_eq_true] at h ⊢
    exact ⟨by simp, h.2⟩

theorem okSub2_suffix : ∀ {l s : List Char}, okSub2 l = true → s <:+ l →
    okSub2 s = true := by
  intro l
  induction l with
  | nil => intro s h hs; rw [List.suffix_nil.mp hs]; rfl
  | cons c cs ih =>
    intro s h hs
    rcases List.suffix_cons_iff.mp hs with hs | hs
    · rw [hs]; exact h
    · simp only [okSub2, Bool.and_eq_true] at h
      exact ih h.2 hs

theorem okSub3_tail {b : Bool} {c : Char} {cs : List Char}
    (h : okSub3 b (c :: cs) = true) : okSub3 (c = '\n') cs = true := by
  simp only [okSub3, Bool.and_eq_true] at h
  exact h.2

theorem subBullets_fix : ∀ (l : List Char) (b : Bool), okSub3 b l = true →
    subBullets b l = l := by
  intro l
  induction l with
  | nil => intro b _; exact subBullets_nil b
  | cons c cs ih =>
    intro b h
    have htail := okSub3_tail h
    cases b with
    | false => rw [subBullets_cons_false, ih _ htail]
    | true =>
      have hnb : noBulletAt (c :: cs) = true := by
        simp only [okSub3, Bool.and_eq_true, if_true] at h
        exact h.1
      rw [subBullets_cons_nomatch ((bulletMatch_none_iff _).mpr hnb), ih _ htail]

theorem noBulletAt_cons_ws {c : Char} {cs : List Char} (h : isPySpace c = true) :
    noBulletAt (c :: cs) = noBulletAt cs := by
  unfold noBulletAt
  rw [List.dropWhile_cons, h]
  simp

theorem noBulletAt_cons_not_ws {c : Char} {cs : List Char}
    (h : isPySpace c = false) :
    noBulletAt (c :: cs) = decide (¬(c = '-')) := by
  unfold noBulletAt
  rw [List.dropWhile_cons, h]
  simp

theorem subBullets_copy (b : Bool) {c : Char} {cs : List Char}
    (h : noBulletAt (c :: cs) = true) :
    subBullets b (c :: cs) = c :: subBullets (c = '\n') cs := by
  cases b with
  | false => exact subBullets_cons_false c cs
  | true => exact subBullets_cons_nomatch ((bulletMatch_none_iff _).mpr h)

theorem noBulletAt_subBullets : ∀ (n : Nat) (x : List Char), x.length ≤ n →
    ∀ b, noBulletAt x = true → noBulletAt (subBullets b x) = true := by
  intro n
  induction n with
  | zero =>
    intro x hl b h
    have h0 : x = [] := List.length_eq_zero.mp (Nat.le_zero.mp hl)
    subst h0
    rw [subBullets_nil]
    rfl
  | succ n ih =>
    intro x hl b h
    match x with
    | [] => rw [subBullets_nil]; rfl
    | d :: ds =>
      have hds : ds.length ≤ n := by simp only [List.length_cons] at hl; omega
      rw [subBullets_copy b h]
      cases hws : isPySpace d with
      | true =>
        rw [noBulletAt_cons_ws hws] at h ⊢
        exact ih ds hds _ h
      | false =>
        rw [noBulletAt_cons_not_ws hws] at h ⊢
        exact h

theorem nl_not_mem_takeWhile_subBullets : ∀ (n : Nat) (x : List Char),
    x.length ≤ n → ∀ b, '\n' ∉ x.takeWhile isPySpace →
    '\n' ∉ (subBullets b x).takeWhile isPySpace := by
  intro n
  induction n with
  | zero =>
    intro x hl b h
    have h0 : x = [] := List.length_eq_zero.mp (Nat.le_zero.mp hl)
    subst h0
    rw [subBullets_nil]
    simpa using h
  | succ n ih =>
    intro x hl b h
    match x with
    | [] => rw [subBullets_nil]; simpa using h
    | d :: ds =>
      have hds : ds.length ≤ n := by simp only [List.length_cons] at hl; omega
      cases hws : isPySpace d with
      | false =>
        have hcopy : ∀ b', subBullets b' (d :: ds) = d :: subBullets (d = '\n') ds ∨
            ∃ rest nl, subBullets b' (d :: ds) = '•' :: ' ' :: subBullets nl rest := by
          intro b'
          cases b' with
          | false => exact Or.inl (subBullets_cons_false d ds)
          | true =>
            cases hm : bulletMatch (d :: ds) with
            | none => exact Or.inl (subBullets_cons_nomatch hm)
            | some p =>
              obtain ⟨rest, nl⟩ := p
              exact Or.inr ⟨rest, nl, subBullets_cons_match hm⟩
        rcases hcopy b with hc | ⟨rest, nl, hc⟩ <;> rw [hc]
        · rw [List.takeWhile_cons, hws]
          simp
        · rw [List.takeWhile_cons, if_neg (by decide : ¬(isPySpace '•' = true))]
          exact List.not_mem_nil _
      | true =>
        rw [List.takeWhile_cons, hws] at h
        simp only [if_true, List.mem_cons] at h
        have hd1 : ¬('\n' = d) := fun hm => h (Or.inl hm)
        have hd2 : '\n' ∉ ds.takeWhile isPySpace := fun hm => h (Or.inr hm)
        cases b with
        | false =>
          rw [subBullets_cons_false, List.takeWhile_cons, hws]
          simp only [if_true, List.mem_cons]
          rintro (h5 | h5)
          · exact hd1 h5
          · exact ih ds hds _ hd2 h5
        | true =>
          cases hm : bulletMatch (d :: ds) with
          | none =>
            rw [subBullets_cons_nomatch hm, List.takeWhile_cons, hws]
            simp only [if_true, List.mem_cons]
            rintro (h5 | h5)
            · exact hd1 h5
            · exact ih ds hds _ hd2 h5
          | some p =>
            obtain ⟨rest, nl⟩ := p
            rw [subBullets_cons_match hm, List.takeWhile_cons,
              if_neg (by decide : ¬(isPySpace '•' = true))]
            exact List.not_mem_nil _

theorem subBullets_ok : ∀ (n : Nat) (l : List Char), l.length ≤ n →
    ∀ b, okSub3 b (subBullets b l) = true := by
  intro n
  induction n with
  | zero =>
    intro l hl b
    have h0 : l = [] := List.length_eq_zero.mp (Nat.le_zero.mp hl)
    subst h0
    rw [subBullets_nil]
    rfl
  | succ n ih =>
    intro l hl b
    match l with
    | [] => rw [subBullets_nil]; rfl
    | c :: cs =>
      have hcs : cs.length ≤ n := by simp only [List.length_cons] at hl; omega
      cases b with
      | false =>
        rw [subBullets_cons_false]
        simp only [okSub3, Bool.and_eq_true]
        exact ⟨by simp, ih cs hcs _⟩
      | true =>
        cases hm : bulletMatch (c :: cs) with
        | none =>
          have hnb := (bulletMatch_none_iff _).mp hm
          rw [subBullets_cons_nomatch hm]
          simp only [okSub3, Bool.and_eq_true, if_true]
          constructor
          · have h2 := noBulletAt_subBullets (n + 1) (c :: cs) hl true hnb
            rw [subBullets_cons_nomatch hm] at h2
            exact h2
          · exact ih cs hcs _
        | some p =>
          obtain ⟨rest, nl⟩ := p
          have hrest : rest.length ≤ n := by
            have := bulletMatch_some_length hm
            simp only [List.length_cons] at this ⊢
            omega
          rw [subBullets_cons_match hm]
          simp only [okSub3, Bool.and_eq_true, if_true]
          refine ⟨?_, ?_, ?_⟩
          · rw [noBulletAt_cons_not_ws (by decide)]
            decide
          · simp
          · exact okSub3_false_of (ih rest hrest nl)

theorem subBullets_okSub1 : ∀ (n : Nat) (l : List Char), l.length ≤ n →
    ∀ b, okSub1 l = true → okSub1 (subBullets b l) = true := by
  intro n
  induction n with
  | zero =>
    intro l hl b _
    have h0 : l = [] := List.length_eq_zero.mp (Nat.le_zero.mp hl)
    subst h0
    rw [subBullets_nil]
    rfl
  | succ n ih =>
    intro l hl b h
    match l with
    | [] => rw [subBullets_nil]; rfl
    | c :: cs =>
      have hcs : cs.length ≤ n := by simp only [List.length_cons] at hl; omega
      simp only [okSub1, Bool.and_eq_true] at h
      have hcopy : subBullets b (c :: cs) = c :: subBullets (c = '\n') cs ∨
          ∃ rest nl, bulletMatch (c :: cs) = some (rest, nl) ∧
            subBullets b (c :: cs) = '•' :: ' ' :: subBullets nl rest := by
        cases b with
        | false => exact Or.inl (subBullets_cons_false c cs)
        | true =>
          cases hm : bulletMatch (c :: cs) with
          | none => exact Or.inl (subBullets_cons_nomatch hm)
          | some p =>
            obtain ⟨rest, nl⟩ := p
            exact Or.inr ⟨rest, nl, rfl, subBullets_cons_match hm⟩
      rcases hcopy with hc | ⟨rest, nl, hm, hc⟩ <;> rw [hc]
      · simp only [okSub1, Bool.and_eq_true]
        refine ⟨?_, ih cs hcs _ h.2⟩
        by_cases hcnl : c = '\n'
        · subst hcnl
          rw [if_pos rfl] at h ⊢
          exact (all_ne_nl_iff _).mpr
            (nl_not_mem_takeWhile_subBullets n cs hcs _
              ((all_ne_nl_iff _).mp h.1))
        · rw [if_neg hcnl]
      · have hrest : rest.length ≤ n := by
          have := bulletMatch_some_length hm
          simp only [List.length_cons] at this
          omega
        have hokrest : okSub1 rest = true := by
          apply okSub1_suffix _ (bulletMatch_some_suffix hm)
          simp only [okSub1, Bool.and_eq_true]
          exact h
        simp only [okSub1, Bool.and_eq_true]
        refine ⟨by simp, by simp, ih rest hrest nl hokrest⟩

theorem subBullets_head_shape (b : Bool) (d : Char) (t : List Char) :
    (subBullets b (d :: t)).head? = some d ∨
      (subBullets b (d :: t)).head? = some '•' := by
  cases b with
  | false => rw [subBullets_cons_false]; exact Or.inl rfl
  | true =>
    cases hm : bulletMatch (d :: t) with
    | none => rw [subBullets_cons_nomatch hm]; exact Or.inl rfl
    | some p =>
      obtain ⟨rest, nl⟩ := p
      rw [subBullets_cons_match hm]
      exact Or.inr rfl

theorem subBullets_okSub2 : ∀ (n : Nat) (l : List Char), l.length ≤ n →
    ∀ b, okSub2 l = true → okSub2 (subBullets b l) = true := by
  intro n
  induction n with
  | zero =>
    intro l hl b _
    have h0 : l = [] := List.length_eq_zero.mp (Nat.le_zero.mp hl)
    subst h0
    rw [subBullets_nil]
    rfl
  | succ n ih =>
    intro l hl b h
    match l with
    | [] => rw [subBullets_nil]; rfl
    | c :: cs =>
      have hcs : cs.length ≤ n := by simp only [List.length_cons] at hl; omega
      simp only [okSub2, Bool.and_eq_true] at h
      obtain ⟨⟨hct, hpair⟩, hcs2⟩ := h
      have hcopy : subBullets b (c :: cs) = c :: subBullets (c = '\n') cs ∨
          ∃ rest nl, bulletMatch (c :: cs) = some (rest, nl) ∧
            subBullets b (c :: cs) = '•' :: ' ' :: subBullets nl rest := by
        cases b with
        | false => exact Or.inl (subBullets_cons_false c cs)
        | true =>
          cases hm : bulletMatch (c :: cs) with
          | none => exact Or.inl (subBullets_cons_nomatch hm)
          | some p =>
            obtain ⟨rest, nl⟩ := p
            exact Or.inr ⟨rest, nl, rfl, subBullets_cons_match hm⟩
      rcases hcopy with hc | ⟨rest, nl, hm, hc⟩ <;> rw [hc]
      · simp only [okSub2, Bool.and_eq_true]
        refine ⟨⟨hct, ?_⟩, ih cs hcs _ hcs2⟩
        by_cases hcsp : c = ' '
        · subst hcsp
          rw [if_pos rfl] at hpair ⊢
          cases cs with
          | nil => rw [subBullets_nil]; rfl
          | cons d t =>
            simp only [List.head?_cons] at hpair
            have hd : ¬(d = ' ') := by simpa using hpair
            rcases subBullets_head_shape (decide (' ' = '\n')) d t with hh | hh <;>
              rw [hh]
            · simpa using hd
            · decide
        · rw [if_neg hcsp]
      · have hrest : rest.length ≤ n := by
          have := bulletMatch_some_length hm
          simp only [List.length_cons] at this
          omega
        have hokrest : okSub2 rest = true := by
          apply okSub2_suffix _ (bulletMatch_some_suffix hm)
          simp only [okSub2, Bool.and_eq_true]
          exact ⟨⟨hct, hpair⟩, hcs2⟩
        simp only [okSub2, Bool.and_eq_true]
        refine ⟨⟨by decide, ?_⟩, ⟨by decide, ?_⟩, ih rest hrest nl hokrest⟩
        · rw [if_neg (by decide : ¬('•' = ' '))]
        · simp only [if_true]
          cases rest with
          | nil => rw [subBullets_nil]; rfl
          | cons d t =>
            have hdws : isPySpace d = false := bulletMatch_rest_head hm d rfl
            have hd : ¬(d = ' ') := by
              rintro rfl
              rw [show isPySpace ' ' = true by decide] at hdws
              exact absurd hdws (by simp)
            rcases subBullets_head_shape nl d t with hh | hh <;> rw [hh]
            · simpa using hd
            · decide

/-! ### The fixed-point predicates are closed under `take`, `dropWhile` and
`pyStrip` -/

theorem mem_takeWhile_take (p : Char → Bool) :
    ∀ (cs : List Char) (k : Nat) (x : Char),
    x ∈ (cs.take k).takeWhile p → x ∈ cs.takeWhile p := by
  intro cs
  induction cs with
  | nil => intro k x h; simp at h
  | cons c cs ih =>
    intro k x h
    match k with
    | 0 => simp at h
    | k + 1 =>
      rw [List.take_succ_cons, List.takeWhile_cons] at h
      rw [List.takeWhile_cons]
      cases hp : p c with
      | false => rw [hp] at h; simp at h
      | true =>
        rw [hp] at h
        simp only [if_true, List.mem_cons] at h ⊢
        rcases h with h | h
        · exact Or.inl h
        · exact Or.inr (ih k x h)

theorem okSub1_take : ∀ (l : List Char) (k : Nat), okSub1 l = true →
    okSub1 (l.take k) = true := by
  intro l
  induction l with
  | nil => intro k h; rw [List.take_nil]; exact h
  | cons c cs ih =>
    intro k h
    simp only [okSub1, Bool.and_eq_true] at h
    match k with
    | 0 => rfl
    | k + 1 =>
      rw [List.take_succ_cons]
      simp only [okSub1, Bool.and_eq_true]
      refine ⟨?_, ih k h.2⟩
      by_cases hc : c = '\n'
      · rw [if_pos hc]
        rw [if_pos hc] at h
        rw [all_ne_nl_iff]
        intro hmem
        exact (all_ne_nl_iff _).mp h.1 (mem_takeWhile_take isPySpace cs k _ hmem)
      · rw [if_neg hc]

theorem okSub2_take : ∀ (l : List Char) (k : Nat), okSub2 l = true →
    okSub2 (l.take k) = true := by
  intro l
  induction l with
  | nil => intro k h; rw [List.take_nil]; exact h
  | cons c cs ih =>
    intro k h
    simp only [okSub2, Bool.and_eq_true] at h
    obtain ⟨⟨hct, hpair⟩, htail⟩ := h
    match k with
    | 0 => rfl
    | k + 1 =>
      rw [List.take_succ_cons]
      simp only [okSub2, Bool.and_eq_true]
      refine ⟨⟨hct, ?_⟩, ih k htail⟩
      by_cases hc : c = ' '
      · rw [if_pos hc]
        rw [if_pos hc] at hpair
        match k, cs with
        | 0, _ => rfl
        | k + 1, [] => rfl
        | k + 1, d :: t =>
          rw [List.take_succ_cons]
          exact hpair
      · rw [if_neg hc]

theorem noBulletAt_take : ∀ (l : List Char) (k : Nat), noBulletAt l = true →
    noBulletAt (l.take k) = true := by
  intro l
  induction l with
  | nil => intro k _; simp; rfl
  | cons c cs ih =>
    intro k h
    match k with
    | 0 => rfl
    | k + 1 =>
      rw [List.take_succ_cons]
      cases hws : isPySpace c with
      | true =>
        rw [noBulletAt_cons_ws hws] at h ⊢
        exact ih k h
      | false =>
        rw [noBulletAt_cons_not_ws hws] at h ⊢
        exact h

theorem okSub3_take : ∀ (l : List Char) (k : Nat) (b : Bool), okSub3 b l = true →
    okSub3 b (l.take k) = true := by
  intro l
  induction l with
  | nil => intro k b _; simp; rfl
  | cons c cs ih =>
    intro k b h
    simp only [okSub3, Bool.and_eq_true] at h
    match k with
    | 0 => rfl
    | k + 1 =>
      rw [List.take_succ_cons]
      simp only [okSub3, Bool.and_eq_true]
      refine ⟨?_, ih k _ h.2⟩
      cases b with
      | false => simp
      | true =>
        simp only [if_true] at h ⊢
        exact noBulletAt_take (c :: cs) (k + 1) h.1

theorem okSub3_false_suffix : ∀ {l s : List Char} {b : Bool},
    okSub3 b l = true → s <:+ l → okSub3 false s = true := by
  intro l
  induction l with
  | nil => intro s b h hs; rw [List.suffix_nil.mp hs]; rfl
  | cons c cs ih =>
    intro s b h hs
    rcases List.suffix_cons_iff.mp hs with hs | hs
    · rw [hs]; exact okSub3_false_of h
    · exact ih (okSub3_tail h) hs

theorem dropWhile_self_of_head (p : Char → Bool) (x : List Char)
    (h : ∀ c, x.head? = some c → p c = false) : x.dropWhile p = x := by
  cases x with
  | nil => rfl
  | cons c cs => rw [List.dropWhile_cons, h c rfl]; simp

theorem noBulletAt_dropWhile (l : List Char) :
    noBulletAt (l.dropWhile isPySpace) = noBulletAt l := by
  conv_rhs => rw [noBulletAt]
  rw [noBulletAt]
  rw [dropWhile_self_of_head isPySpace (l.dropWhile isPySpace)
    (fun c hc => dropWhile_head_not isPySpace hc)]

theorem okSub3_head_nb {c : Char} {cs : List Char}
    (h : okSub3 true (c :: cs) = true) : noBulletAt (c :: cs) = true := by
  simp only [okSub3, Bool.and_eq_true, if_true] at h
  exact h.1

theorem okSub3_of_false_nb : ∀ {s : List Char}, okSub3 false s = true →
    noBulletAt s = true → okSub3 true s = true := by
  intro s h hnb
  cases s with
  | nil => rfl
  | cons c cs =>
    simp only [okSub3, Bool.and_eq_true, if_true] at h ⊢
    exact ⟨hnb, h.2⟩

theorem okSub3_dropWhile {l : List Char} (h : okSub3 true l = true) :
    okSub3 true (l.dropWhile isPySpace) = true := by
  have hfalse : okSub3 false (l.dropWhile isPySpace) = true :=
    okSub3_false_suffix h (List.dropWhile_suffix isPySpace)
  apply okSub3_of_false_nb hfalse
  rw [noBulletAt_dropWhile]
  cases l with
  | nil => rfl
  | cons c cs => exact okSub3_head_nb h

theorem pyStrip_prefix_dropWhile (x : List Char) :
    pyStrip x <+: x.dropWhile isPySpace := by
  unfold pyStrip
  have h : ((x.dropWhile isPySpace).reverse.dropWhile isPySpace).reverse <+:
      (x.dropWhile isPySpace).reverse.reverse :=
    List.reverse_prefix.mpr (List.dropWhile_suffix isPySpace)
  rwa [List.reverse_reverse] at h

theorem okSub1_pyStrip {x : List Char} (h : okSub1 x = true) :
    okSub1 (pyStrip x) = true := by
  have hs : okSub1 (x.dropWhile isPySpace) = true :=
    okSub1_suffix h (List.dropWhile_suffix isPySpace)
  rw [List.prefix_iff_eq_take.mp (pyStrip_prefix_dropWhile x)]
  exact okSub1_take _ _ hs

theorem okSub2_pyStrip {x : List Char} (h : okSub2 x = true) :
    okSub2 (pyStrip x) = true := by
  have hs : okSub2 (x.dropWhile isPySpace) = true :=
    okSub2_suffix h (List.dropWhile_suffix isPySpace)
  rw [List.prefix_iff_eq_take.mp (pyStrip_prefix_dropWhile x)]
  exact okSub2_take _ _ hs

theorem okSub3_pyStrip {x : List Char} (h : okSub3 true x = true) :
    okSub3 true (pyStrip x) = true := by
  have hs : okSub3 true (x.dropWhile isPySpace) = true := okSub3_dropWhile h
  rw [List.prefix_iff_eq_take.mp (pyStrip_prefix_dropWhile x)]
  exact okSub3_take _ _ _ hs

theorem prefix_head_eq {x y : List Char} {c : Char} (h : x <+: y)
    (hc : x.head? = some c) : y.head? = some c := by
  obtain ⟨r, hr⟩ := h
  cases x with
  | nil => simp at hc
  | cons a t =>
    rw [← hr, List.cons_append]
    simpa using hc

theorem pyStrip_idem (t : List Char) : pyStrip (pyStrip t) = pyStrip t := by
  have hhead : ∀ c, (pyStrip t).head? = some c → isPySpace c = false := by
    intro c hc
    exact dropWhile_head_not isPySpace
      (prefix_head_eq (pyStrip_prefix_dropWhile t) hc)
  conv_lhs => rw [pyStrip]
  rw [dropWhile_self_of_head isPySpace (pyStrip t) hhead]
  rw [show (pyStrip t).reverse =
    ((t.dropWhile isPySpace).reverse.dropWhile isPySpace) from by
      rw [pyStrip, List.reverse_reverse]]
  rw [dropWhile_self_of_head isPySpace _
    (fun c hc => dropWhile_head_not isPySpace hc)]
  rw [pyStrip]

theorem normalizeText_fix {x : List Char} (h1 : okSub1 x = true)
    (h2 : okSub2 x = true) (h3 : okSub3 true x = true) :
    normalizeText x = x := by
  unfold normalizeText
  rw [subNl_fix h1, subSpaces_fix h2, subBullets_fix x true h3]

theorem normalizeText_ok (l : List Char) :
    okSub1 (normalizeText l) = true ∧ okSub2 (normalizeText l) = true ∧
      okSub3 true (normalizeText l) = true := by
  have h1 : okSub1 (subNl l) = true := subNl_ok l
  have h2 : okSub2 (subSpaces (subNl l)) = true := subSpaces_ok (subNl l)
  have h1' : okSub1 (subSpaces (subNl l)) = true :=
    subSpaces_okSub1 (subNl l).length (subNl l) (Nat.le_refl _) h1
  refine ⟨?_, ?_, ?_⟩
  · exact subBullets_okSub1 (subSpaces (subNl l)).length _ (Nat.le_refl _) true h1'
  · exact subBullets_okSub2 (subSpaces (subNl l)).length _ (Nat.le_refl _) true h2
  · exact subBullets_ok (subSpaces (subNl l)).length _ (Nat.le_refl _) true

/-! ### C3 — idempotence of the formatter -/

/-- C3 (amended): the formatter is idempotent on every input whose
normalized text fits under the 45,000-character cap — in particular on all
already-normalized inputs of at most 45,000 characters: the three
substitution passes fix their own output and the final `strip` is
idempotent.  (The truncation path breaks idempotence; see the
counterexample.) -/
theorem C3_amended_idempotent (l : List Char)
    (hcap : (normalizeText l).length ≤ 45000) :
    format_for_google_sheets (some (format_for_google_sheets (some l))) =
      format_for_google_sheets (some l) := by
  by_cases hl : l = []
  · subst hl; rfl
  · have hfmt : format_for_google_sheets (some l) =
        pyStrip (normalizeText l) := by
      simp only [format_for_google_sheets, if_neg hl]
      rw [if_neg (by omega)]
    rw [hfmt]
    obtain ⟨h1, h2, h3⟩ := normalizeText_ok l
    by_cases hst : pyStrip (normalizeText l) = []
    · rw [hst]; rfl
    · have hfix : normalizeText (pyStrip (normalizeText l)) =
          pyStrip (normalizeText l) :=
        normalizeText_fix (okSub1_pyStrip h1) (okSub2_pyStrip h2)
          (okSub3_pyStrip h3)
      simp only [format_for_google_sheets, if_neg hst]
      rw [hfix]
      rw [if_neg (by
        have := pyStrip_length_le (normalizeText l)
        omega)]
      exact pyStrip_idem (normalizeText l)

unseal subNl subSpaces subBullets in
theorem C3_amended_idempotent_witness :
    (normalizeText "a  b\n\nc".data).length ≤ 45000 ∧
      format_for_google_sheets
          (some (format_for_google_sheets (some "a  b\n\nc".data))) =
        format_for_google_sheets (some "a  b\n\nc".data) :=
  ⟨by decide, C3_amended_idempotent "a  b\n\nc".data (by decide)⟩

theorem takeWhile_replicate_neg {p : Char → Bool} {c : Char} (h : p c = false) :
    ∀ n, (List.replicate n c).takeWhile p = [] := by
  intro n
  cases n with
  | zero => rfl
  | succ n =>
    rw [List.replicate_succ, List.takeWhile_cons, h]
    simp

theorem okSub1_replicate_append {c : Char} (hc : ¬(c = '\n'))
    {rest : List Char} (h : okSub1 rest = true) :
    ∀ n, okSub1 (List.replicate n c ++ rest) = true := by
  intro n
  induction n with
  | zero => simpa using h
  | succ n ih =>
    rw [List.replicate_succ, List.cons_append]
    simp only [okSub1, Bool.and_eq_true]
    exact ⟨by rw [if_neg hc], ih⟩

theorem okSub2_replicate_append {c : Char} (hc1 : ¬(c = '\t'))
    (hc2 : ¬(c = ' ')) {rest : List Char} (h : okSub2 rest = true) :
    ∀ n, okSub2 (List.replicate n c ++ rest) = true := by
  intro n
  induction n with
  | zero => simpa using h
  | succ n ih =>
    rw [List.replicate_succ, List.cons_append]
    simp only [okSub2, Bool.and_eq_true]
    exact ⟨⟨by simpa using hc1, by rw [if_neg hc2]⟩, ih⟩

theorem okSub3_replicate_append {c : Char} (hnl : ¬(c = '\n'))
    {rest : List Char} (h : okSub3 false rest = true) :
    ∀ n, okSub3 false (List.replicate n c ++ rest) = true := by
  intro n
  induction n with
  | zero => simpa using h
  | succ n ih =>
    rw [List.replicate_succ, List.cons_append]
    simp only [okSub3, Bool.and_eq_true]
    refine ⟨by simp, ?_⟩
    rw [decide_eq_false hnl]
    exact ih

theorem okSub3_cons_true {c : Char} {cs : List Char} (hws : isPySpace c = false)
    (hd : ¬(c = '-')) (hnl : ¬(c = '\n')) (h : okSub3 false cs = true) :
    okSub3 true (c :: cs) = true := by
  simp only [okSub3, Bool.and_eq_true, if_true]
  refine ⟨?_, ?_⟩
  · rw [noBulletAt_cons_not_ws hws]
    simpa using hd
  · rw [decide_eq_false hnl]
    exact h

theorem c3Input_ok : okSub1 c3Input = true ∧ okSub2 c3Input = true ∧
    okSub3 true c3Input = true := by
  refine ⟨?_, ?_, ?_⟩
  · show okSub1 (List.replicate 44998 'a' ++
      '\n' :: ' ' :: List.replicate 100 'b') = true
    exact okSub1_replicate_append (by decide) (by decide) 44998
  · show okSub2 (List.replicate 44998 'a' ++
      '\n' :: ' ' :: List.replicate 100 'b') = true
    exact okSub2_replicate_append (by decide) (by decide) (by decide) 44998
  · show okSub3 true (List.replicate 44998 'a' ++
      '\n' :: ' ' :: List.replicate 100 'b') = true
    rw [show (44998 : Nat) = 44997 + 1 from rfl, List.replicate_succ,
      List.cons_append]
    exact okSub3_cons_true (by decide) (by decide) (by decide)
      (okSub3_replicate_append (by decide) (by decide) 44997)

theorem pyStrip_eq_self {x : List Char}
    (h1 : ∀ c, x.head? = some c → isPySpace c = false)
    (h2 : ∀ c, x.getLast? = some c → isPySpace c = false) :
    pyStrip x = x := by
  rw [pyStrip]
  rw [dropWhile_self_of_head isPySpace x h1]
  rw [dropWhile_self_of_head isPySpace x.reverse
    (fun c hc => h2 c (by rwa [List.head?_reverse] at hc))]
  exact List.reverse_reverse x

theorem c3_A_cons : List.replicate 44998 'a' = 'a' :: List.replicate 44997 'a' := by
  rw [show (44998 : Nat) = 44997 + 1 from rfl, List.replicate_succ]

theorem c3_head_a (x : List Char) :
    (List.replicate 44998 'a' ++ x).head? = some 'a' := by
  rw [c3_A_cons, List.cons_append, List.head?_cons]

theorem getLast_truncMarker_append (y : List Char) :
    (y ++ truncMarker).getLast? = some ']' := by
  rw [List.getLast?_append_of_ne_nil y (by decide)]
  decide

theorem pyStrip_c3_shape (mid : List Char) :
    pyStrip (List.replicate 44998 'a' ++ mid ++ truncMarker) =
      List.replicate 44998 'a' ++ mid ++ truncMarker := by
  apply pyStrip_eq_self
  · intro c hc
    rw [List.append_assoc, c3_head_a] at hc
    injection hc with h
    rw [← h]
    decide
  · intro c hc
    rw [getLast_truncMarker_append] at hc
    injection hc with h
    rw [← h]
    decide

theorem take_c3_shape (tail : List Char) :
    (List.replicate 44998 'a' ++ tail).take 45000 =
      List.replicate 44998 'a' ++ tail.take 2 := by
  rw [List.take_append_eq_append_take]
  rw [List.take_of_length_le (by rw [List.length_replicate]; omega)]
  rw [List.length_replicate]

theorem c3_fmt_eq : format_for_google_sheets (some c3Input) =
    List.replicate 44998 'a' ++ '\n' :: ' ' :: truncMarker := by
  have hlen : c3Input.length = 45100 := by
    show (List.replicate 44998 'a' ++
      '\n' :: ' ' :: List.replicate 100 'b').length = 45100
    rw [List.length_append, List.length_replicate, List.length_cons,
      List.length_cons, List.length_replicate]
  have hne : c3Input ≠ [] := by
    intro h
    rw [h] at hlen
    simp at hlen
  obtain ⟨h1, h2, h3⟩ := c3Input_ok
  have hnorm : normalizeText c3Input = c3Input := normalizeText_fix h1 h2 h3
  simp only [format_for_google_sheets, if_neg hne]
  rw [hnorm, if_pos (by omega)]
  rw [show c3Input = List.replicate 44998 'a' ++
    ('\n' :: ' ' :: List.replicate 100 'b') from rfl]
  rw [take_c3_shape]
  rw [show ('\n' :: ' ' :: List.replicate 100 'b').take 2 = ['\n', ' ']
    from rfl]
  rw [pyStrip_c3_shape, List.append_assoc]
  rfl

unseal subNl subSpaces subBullets in
theorem c3_fmt2_eq :
    format_for_google_sheets (some (List.replicate 44998 'a' ++
        '\n' :: ' ' :: truncMarker)) =
      List.replicate 44998 'a' ++ '\n' :: '[' :: truncMarker := by
  have hA : ∀ c ∈ List.replicate 44998 'a', c = 'a' :=
    fun c hc => List.eq_of_mem_replicate hc
  have hne : (List.replicate 44998 'a' ++ '\n' :: ' ' :: truncMarker) ≠ [] := by
    intro h
    have := congrArg List.head? h
    rw [c3_head_a] at this
    simp at this
  have hnorm : normalizeText (List.replicate 44998 'a' ++
      '\n' :: ' ' :: truncMarker) =
      List.replicate 44998 'a' ++
        '\n' :: "[Summary truncated due to length]".data := by
    rw [normalizeText]
    rw [subNl_append_not_nl _ (fun c hc => by rw [hA c hc]; decide)]
    rw [show subNl ('\n' :: ' ' :: truncMarker) =
      '\n' :: "[Summary truncated due to length]".data from by decide]
    rw [subSpaces_append_not_st _ (fun c hc => by rw [hA c hc]; decide)]
    rw [show subSpaces ('\n' :: "[Summary truncated due to length]".data) =
      '\n' :: "[Summary truncated due to length]".data from by decide]
    rw [subBullets_append_plain _ _ true
      (by rw [c3_A_cons]; exact List.cons_ne_nil _ _)
      (fun c hc => by rw [hA c hc]; exact ⟨by decide, by decide⟩)]
    rw [show subBullets false
        ('\n' :: "[Summary truncated due to length]".data) =
      '\n' :: "[Summary truncated due to length]".data from by decide]
  have hlen : (List.replicate 44998 'a' ++
      '\n' :: "[Summary truncated due to length]".data).length = 45032 := by
    rw [List.length_append, List.length_replicate, List.length_cons,
      show "[Summary truncated due to length]".data.length = 33 from by decide]
  simp only [format_for_google_sheets, if_neg hne]
  rw [hnorm, if_pos (by omega)]
  rw [take_c3_shape]
  rw [show ('\n' :: "[Summary truncated due to length]".data).take 2 =
    ['\n', '['] from rfl]
  rw [pyStrip_c3_shape, List.append_assoc]
  rfl

/-- C3 (counterexample): the formatter is not idempotent in general.  On an
already-normalized input of 45,100 characters whose 45,000-character cut
falls right after a newline-space pair, the first application truncates and
appends the marker, and the second application's `\n\s*\n → \n` pass then
collapses the straddling `"\n \n\n"` into a single newline, yielding a
different string. -/
theorem C3_counterexample :
    format_for_google_sheets (some (format_for_google_sheets (some c3Input))) ≠
      format_for_google_sheets (some c3Input) := by
  rw [c3_fmt_eq, c3_fmt2_eq]
  intro h
  have h2 := List.append_cancel_left h
  exact absurd h2 (by decide)

end ResTools
